import Mathlib

/-!
Verification of the crossword layout generator in `crucigrama.py`.

The Python source builds a 27×27 crossword layout from a list of clue/answer
entries: answers are normalized to A-Z strings, sorted by decreasing length
(stable), the longest word is seeded horizontally at the center, and every
further word is placed by a greedy crossing search (`can_place` legality
check, score = (overlap count, centering)), with a row-major first-fit
fallback; finally placements are sorted by (row, col) and numbered 1, 2, 3, ….

This file embeds those functions on lists, with machine-level partiality
(Python `IndexError` on an out-of-bounds grid write) modelled by `Option`.
All reads the Python code performs are bounds-guarded in the source, so
modelling an out-of-bounds read as `none` never diverges from the source.
Coordinates are `Int`, as the source computes possibly-negative candidate
start coordinates (`start_c = c - j`) that `can_place` rejects.
-/

namespace Crucigrama

/-- `GRID_SIZE = 27` in the source. -/
def GRID_SIZE : Nat := 27

/-- Orientation of a placement: `'H'` or `'V'` in the source. -/
inductive Ori where
  | H
  | V
deriving DecidableEq

/-- One `Placement` record (the clue `number` is attached after generation). -/
structure Placement where
  word_id : Nat
  row : Int
  col : Int
  ori : Ori
  length : Nat
deriving DecidableEq

/-- `Placement.cells`: the grid cells occupied by a placement. -/
def Placement.cells (p : Placement) : List (Int × Int) :=
  match p.ori with
  | .H => (List.range p.length).map (fun i : Nat => (p.row, p.col + (i : Int)))
  | .V => (List.range p.length).map (fun i : Nat => (p.row + (i : Int), p.col))

/-- The grid matrix: `None` = empty cell, `some ch` = letter. -/
abbrev Grid := List (List (Option Char))

/-- The `used_mask` matrix. -/
abbrev Mask := List (List Bool)

/-- The mutable `Crossword` state during generation. -/
structure State where
  grid : Grid
  used_mask : Mask
  placements : List Placement
deriving DecidableEq

/-- Generator output: grid, mask and the numbered, (row, col)-sorted
placements, i.e. the layout part of `Crossword.to_state`. -/
structure Layout where
  grid : Grid
  used_mask : Mask
  placements : List (Nat × Placement)
deriving DecidableEq

/-- Read `grid[r][c]`; an out-of-bounds read is `none` (the source only
reads in bounds, so this is unobservable). -/
def getCell (g : Grid) (r c : Int) : Option Char :=
  if 0 ≤ r ∧ r < (g.length : Int) then
    if 0 ≤ c ∧ c < (((g.getD r.toNat []).length : Nat) : Int) then
      (g.getD r.toNat []).getD c.toNat none
    else none
  else none

/-- Write `grid[r][c] = ch`; `none` models the `IndexError` a Python write
outside the list raises.  (A negative Python index in `[-len, -1]` would wrap
instead; `generate` never produces one at a write, see `place` call sites.) -/
def setCell (g : Grid) (r c : Int) (ch : Char) : Option Grid :=
  if 0 ≤ r ∧ r < (g.length : Int) then
    if 0 ≤ c ∧ c < (((g.getD r.toNat []).length : Nat) : Int) then
      some (g.set r.toNat ((g.getD r.toNat []).set c.toNat (some ch)))
    else none
  else none

/-- Write `used_mask[r][c] = True` (always in bounds when reached, because
the grid write at the same index succeeded first). -/
def setMask (m : Mask) (r c : Int) : Mask :=
  if 0 ≤ r ∧ 0 ≤ c then m.set r.toNat ((m.getD r.toNat []).set c.toNat true) else m

/-- Cell `i` of a span starting at `(r, c)` with the given orientation:
`(r, c + i)` for `'H'`, `(r + i, c)` for `'V'`. -/
def spanPos (ori : Ori) (r c : Int) (i : Nat) : Int × Int :=
  match ori with
  | .H => (r, c + (i : Int))
  | .V => (r + (i : Int), c)

/-- The scan loop of `can_place`: walk the span; `none` on a contradicting
letter, otherwise the overlap count. -/
def spanScan (g : Grid) (ori : Ori) : Int → Int → List Char → Option Nat
  | _, _, [] => some 0
  | r, c, ch :: rest =>
    let cell := getCell g r c
    if cell ≠ none ∧ cell ≠ some ch then none
    else
      match spanScan g ori (spanPos ori r c 1).1 (spanPos ori r c 1).2 rest with
      | none => none
      | some ov => some (if cell = some ch then ov + 1 else ov)

/-- `Crossword.can_place(word, r, c, ori)`: bounds check, collinear-adjacency
check before/after the span, then the letter scan. -/
def can_place (g : Grid) (word : List Char) (r c : Int) (ori : Ori) : Bool × Nat :=
  let L : Int := word.length
  match ori with
  | .H =>
    if c < 0 ∨ c + L > (GRID_SIZE : Int) ∨ r < 0 ∨ (GRID_SIZE : Int) ≤ r then (false, 0)
    else if 0 ≤ c - 1 ∧ getCell g r (c - 1) ≠ none then (false, 0)
    else if c + L < (GRID_SIZE : Int) ∧ getCell g r (c + L) ≠ none then (false, 0)
    else
      match spanScan g .H r c word with
      | none => (false, 0)
      | some ov => (true, ov)
  | .V =>
    if r < 0 ∨ r + L > (GRID_SIZE : Int) ∨ c < 0 ∨ (GRID_SIZE : Int) ≤ c then (false, 0)
    else if 0 ≤ r - 1 ∧ getCell g (r - 1) c ≠ none then (false, 0)
    else if r + L < (GRID_SIZE : Int) ∧ getCell g (r + L) c ≠ none then (false, 0)
    else
      match spanScan g .V r c word with
      | none => (false, 0)
      | some ov => (true, ov)

/-- The write loop of `Crossword.place`: set grid and mask along the span. -/
def writeSpan (ori : Ori) : Grid → Mask → Int → Int → List Char → Option (Grid × Mask)
  | g, m, _, _, [] => some (g, m)
  | g, m, r, c, ch :: rest =>
    match setCell g r c ch with
    | none => none
    | some g2 => writeSpan ori g2 (setMask m r c) (spanPos ori r c 1).1 (spanPos ori r c 1).2 rest

/-- `Crossword.place(word_id, r, c, ori)`: write the word and append the
`Placement` record. -/
def place (answers : List (List Char)) (st : State) (word_id : Nat) (r c : Int)
    (ori : Ori) : Option State :=
  let word := answers.getD word_id []
  match writeSpan ori st.grid st.used_mask r c word with
  | none => none
  | some (g2, m2) =>
    some ⟨g2, m2, st.placements ++ [⟨word_id, r, c, ori, word.length⟩]⟩

/-- Candidate score, Python tuple `(overlaps, -abs(r-13)-abs(start_c-13))`. -/
abbrev Score := Int × Int

/-- A tracked candidate `(score, r, c, ori)`. -/
abbrev Cand := Score × Int × Int × Ori

/-- Python tuple comparison `cand[0] > best[0]` on `(Int, Int)` scores. -/
def scoreGT (a b : Score) : Bool :=
  decide (b.1 < a.1 ∨ (a.1 = b.1 ∧ b.2 < a.2))

/-- `best`-update: keep the incumbent on ties (the source uses strict `>`). -/
def better (best : Option Cand) (cand : Cand) : Option Cand :=
  match best with
  | none => some cand
  | some b => if scoreGT cand.1 b.1 then some cand else some b

/-- Centering part of the score for a candidate with origin `(r, c)`. -/
def centerScore (r c : Int) : Int :=
  -((r - (GRID_SIZE : Int) / 2).natAbs : Int) - ((c - (GRID_SIZE : Int) / 2).natAbs : Int)

/-- The body of the `for j, ch in enumerate(word)` loop of the candidate
search at a filled cell `(r, c)` holding `cell`. -/
def candStep (g : Grid) (word : List Char) (r c : Int) (cell : Char)
    (best : Option Cand) (jch : Nat × Char) : Option Cand :=
  if jch.2 ≠ cell then best
  else
    let start_c := c - (jch.1 : Int)
    let resH := can_place g word r start_c .H
    let best1 :=
      if resH.1 then
        better best (((resH.2 : Int), centerScore r start_c), r, start_c, .H)
      else best
    let start_r := r - (jch.1 : Int)
    let resV := can_place g word start_r c .V
    if resV.1 then
      better best1 (((resV.2 : Int), centerScore start_r c), start_r, c, .V)
    else best1

/-- The inner `for j, ch in enumerate(word)` loop (the `match` on each
intermediate result is the identity; it keeps kernel reduction shallow). -/
def candLoop (g : Grid) (word : List Char) (r c : Int) (cell : Char) :
    List (Nat × Char) → Option Cand → Option Cand
  | [], best => best
  | jch :: rest, best =>
    match candStep g word r c cell best jch with
    | none => candLoop g word r c cell rest none
    | some cd => candLoop g word r c cell rest (some cd)

/-- The inner `for j, ch in enumerate(word)` loop of the candidate search at
a filled cell `(r, c)` holding `cell`. -/
def candsAt (g : Grid) (word : List Char) (r c : Int) (cell : Char)
    (best : Option Cand) : Option Cand :=
  candLoop g word r c cell word.enum best

/-- The grid positions `(r, c)` in row-major order, as scanned by the two
nested `for r … for c …` loops of the candidate search. -/
def rowMajor : List (Nat × Nat) :=
  (List.range GRID_SIZE).flatMap fun r => (List.range GRID_SIZE).map fun c => (r, c)

/-- The outer cell loop of the candidate search. -/
def cellLoop (g : Grid) (word : List Char) : List (Nat × Nat) → Option Cand → Option Cand
  | [], best => best
  | rc :: rest, best =>
    let best2 :=
      match getCell g (rc.1 : Int) (rc.2 : Int) with
      | none => best
      | some cell => candsAt g word (rc.1 : Int) (rc.2 : Int) cell best
    match best2 with
    | none => cellLoop g word rest none
    | some cd => cellLoop g word rest (some cd)

/-- The full best-candidate search of `generate` for one non-seed word. -/
def bestCandidate (g : Grid) (word : List Char) : Option Cand :=
  cellLoop g word rowMajor none

/-- Row-major first-fit scan of the fallback, for one orientation. -/
def scanOri (g : Grid) (word : List Char) (oo : Ori) : Option (Int × Int) :=
  (List.range GRID_SIZE).findSome? fun r =>
    (List.range GRID_SIZE).findSome? fun c =>
      if (can_place g word (r : Int) (c : Int) oo).1 then some ((r : Int), (c : Int))
      else none

/-- The fallback of `generate`: first legal position, `'H'` scan before
`'V'` scan; if neither succeeds the word is silently skipped. -/
def fallback (answers : List (List Char)) (st : State) (word_id : Nat)
    (word : List Char) : Option State :=
  match scanOri st.grid word .H with
  | some rc => place answers st word_id rc.1 rc.2 .H
  | none =>
    match scanOri st.grid word .V with
    | some rc => place answers st word_id rc.1 rc.2 .V
    | none => some st

/-- One non-seed iteration of the `generate` loop. -/
def placeWord (answers : List (List Char)) (st : State) (word_id : Nat) : Option State :=
  let word := answers.getD word_id []
  match bestCandidate st.grid word with
  | some cand =>
    if 0 < cand.1.1 then place answers st word_id cand.2.1 cand.2.2.1 cand.2.2.2
    else fallback answers st word_id word
  | none => fallback answers st word_id word

/-- The unchecked seed placement of the first (longest) word:
`r = GRID_SIZE // 2`, `c = max(0, (GRID_SIZE - len) // 2)`, horizontal. -/
def seedPlace (answers : List (List Char)) (st : State) (word_id : Nat) : Option State :=
  let word := answers.getD word_id []
  let r : Int := (GRID_SIZE : Int) / 2
  let c : Int := max 0 (Int.fdiv ((GRID_SIZE : Int) - (word.length : Int)) 2)
  place answers st word_id r c .H

/-- Length of answer `i`, `len(self.entries[i]['answer_norm'])`. -/
def ansLen (answers : List (List Char)) (i : Nat) : Nat :=
  (answers.getD i []).length

/-- Stable insertion for the processing order (decreasing length; a new index
goes after every index of equal or larger length). -/
def insOrder (answers : List (List Char)) (i : Nat) : List Nat → List Nat
  | [] => [i]
  | j :: rest =>
    if ansLen answers i ≤ ansLen answers j then j :: insOrder answers i rest
    else i :: j :: rest

/-- `self.order = sorted(range(n), key=lambda i: len(answer_norm), reverse=True)`:
the stable decreasing-length order of entry indices. -/
def sortOrder (answers : List (List Char)) : List Nat :=
  (List.range answers.length).foldl (fun acc i => insOrder answers i acc) []

/-- Stable insertion for the final `(row, col)` placement sort. -/
def insPlace (p : Placement) : List Placement → List Placement
  | [] => [p]
  | q :: rest =>
    if q.row < p.row ∨ (q.row = p.row ∧ q.col ≤ p.col) then q :: insPlace p rest
    else p :: q :: rest

/-- `self.placements.sort(key=lambda p: (p.row, p.col))` (stable). -/
def sortPlacements (ps : List Placement) : List Placement :=
  ps.foldl (fun acc p => insPlace p acc) []

/-- `for i, p in enumerate(self.placements, start=1): p.number = i`. -/
def numberFrom : Nat → List Placement → List (Nat × Placement)
  | _, [] => []
  | n, p :: rest => (n, p) :: numberFrom (n + 1) rest

/-- The numbering step at the end of `generate`, packaging the layout. -/
def finalize (st : State) : Layout :=
  ⟨st.grid, st.used_mask, numberFrom 1 (sortPlacements st.placements)⟩

/-- The fresh 27×27 state built by `Crossword.__init__`. -/
def initState : State :=
  ⟨List.replicate GRID_SIZE (List.replicate GRID_SIZE none),
   List.replicate GRID_SIZE (List.replicate GRID_SIZE false), []⟩

/-- The main loop of `Crossword.generate` over `self.order` (`idx == 0` is
the seed, the rest go through the candidate search / fallback). -/
def runOrder (answers : List (List Char)) : List Nat → Option State
  | [] => some initState
  | w0 :: rest =>
    match seedPlace answers initState w0 with
    | none => none
    | some s1 => rest.foldlM (placeWord answers) s1

/-- `Crossword.generate` on the normalized answers (`answer_norm` fields):
`none` models the uncaught `IndexError` of an out-of-bounds grid write. -/
def generate (answers : List (List Char)) : Option Layout :=
  (runOrder answers (sortOrder answers)).map finalize

/-!
## The normalizer

`strip_accents` uses Python `unicodedata.normalize('NFD', s)` and the
`'Mn'` category, and `normalize_answer` uses `str.upper()`.  The Unicode
tables are not reproduced here; the three are abstract parameters (`nfd`
string-level, `isMn` per character, `upper` per character with possible
expansion, as in Python where `'ß'.upper() == 'SS'`).  Theorems state the
facts about ASCII `A`-`Z` under which they are used as hypotheses.
-/

/-- `strip_accents(s)`: NFD-decompose, then drop combining marks. -/
def strip_accents (nfd : List Char → List Char) (isMn : Char → Bool)
    (s : List Char) : List Char :=
  (nfd s).filter fun ch => !(isMn ch)

/-- `normalize_answer(s)`: strip accents, upper-case, keep only `A`-`Z`. -/
def normalize_answer (nfd : List Char → List Char) (isMn : Char → Bool)
    (upper : Char → List Char) (s : List Char) : List Char :=
  ((strip_accents nfd isMn s).flatMap upper).filter fun ch =>
    decide ('A' ≤ ch ∧ ch ≤ 'Z')

/-!
## Claim C10: normalization idempotence
-/

/-- Every character of a normalized answer lies in `A`-`Z`. -/
theorem mem_normalize_az (nfd : List Char → List Char) (isMn : Char → Bool)
    (upper : Char → List Char) (s : List Char) (c : Char)
    (hc : c ∈ normalize_answer nfd isMn upper s) : 'A' ≤ c ∧ c ≤ 'Z' := by
  have h := List.mem_filter.mp hc
  exact of_decide_eq_true h.2

/-- `flatMap` over a singleton-valued function is the identity. -/
theorem flatMap_singleton_id (upper : Char → List Char) :
    ∀ (t : List Char), (∀ c ∈ t, upper c = [c]) → t.flatMap upper = t := by
  intro t
  induction t with
  | nil => intro _; rfl
  | cons c cs ih =>
    intro h
    rw [List.flatMap_cons, h c (by simp), ih (fun d hd => h d (by simp [hd]))]
    rfl

/-- C10 — Normalization idempotence: `normalize(normalize(x)) = normalize(x)`
for every string `x`, given that NFD decomposition fixes `A`-`Z`-only
strings, that `A`-`Z` characters are not combining marks, and that
upper-casing fixes `A`-`Z` characters (all true of Unicode). -/
theorem normalize_answer_idem (nfd : List Char → List Char) (isMn : Char → Bool)
    (upper : Char → List Char)
    (hnfd : ∀ t : List Char, (∀ c ∈ t, 'A' ≤ c ∧ c ≤ 'Z') → nfd t = t)
    (hMn : ∀ c : Char, 'A' ≤ c → c ≤ 'Z' → isMn c = false)
    (hup : ∀ c : Char, 'A' ≤ c → c ≤ 'Z' → upper c = [c])
    (s : List Char) :
    normalize_answer nfd isMn upper (normalize_answer nfd isMn upper s) =
      normalize_answer nfd isMn upper s := by
  set t := normalize_answer nfd isMn upper s with ht
  have haz : ∀ c ∈ t, 'A' ≤ c ∧ c ≤ 'Z' := fun c hc =>
    mem_normalize_az nfd isMn upper s c (ht ▸ hc)
  have h1 : strip_accents nfd isMn t = t := by
    rw [strip_accents, hnfd t haz]
    apply List.filter_eq_self.mpr
    intro c hc
    simp [hMn c (haz c hc).1 (haz c hc).2]
  have h2 : t.flatMap upper = t :=
    flatMap_singleton_id upper t (fun c hc => hup c (haz c hc).1 (haz c hc).2)
  rw [normalize_answer, h1, h2]
  apply List.filter_eq_self.mpr
  intro c hc
  exact decide_eq_true (haz c hc)

/-- A small concrete NFD fragment: the two Spanish accented letters that the
fixed entry list exercises decompose to base letter + U+0301. -/
def nfdDemo (s : List Char) : List Char :=
  s.flatMap fun c =>
    if c = 'Á' then ['A', '́'] else if c = 'á' then ['a', '́'] else [c]

/-- A concrete combining-mark test: U+0301 COMBINING ACUTE ACCENT. -/
def isMnDemo (c : Char) : Bool := c = '́'

/-- A concrete per-character upper-casing. -/
def upperDemo (c : Char) : List Char := [c.toUpper]

theorem nfdDemo_fixes_az :
    ∀ t : List Char, (∀ c ∈ t, 'A' ≤ c ∧ c ≤ 'Z') → nfdDemo t = t := by
  intro t
  induction t with
  | nil => intro _; rfl
  | cons c cs ih =>
    intro h
    have hc := h c (by simp)
    have h1 : c ≠ 'Á' := by
      rintro rfl
      exact absurd hc.2 (by decide)
    have h2 : c ≠ 'á' := by
      rintro rfl
      exact absurd hc.2 (by decide)
    rw [nfdDemo, List.flatMap_cons, if_neg h1, if_neg h2,
      show cs.flatMap _ = nfdDemo cs from rfl, ih (fun d hd => h d (by simp [hd]))]
    rfl

theorem isMnDemo_false_on_az : ∀ c : Char, 'A' ≤ c → c ≤ 'Z' → isMnDemo c = false := by
  intro c _ h2
  rw [isMnDemo, decide_eq_false_iff_not]
  rintro rfl
  exact absurd h2 (by decide)

theorem upperDemo_fixes_az : ∀ c : Char, 'A' ≤ c → c ≤ 'Z' → upperDemo c = [c] := by
  intro c h1 h2
  have hn : c.toNat ≤ 90 := h2
  rw [upperDemo, Char.toUpper, if_neg (by omega)]

/-- Witness for C10 at a concrete instantiation and a concrete string. -/
theorem normalize_answer_idem_witness :
    normalize_answer nfdDemo isMnDemo upperDemo
        (normalize_answer nfdDemo isMnDemo upperDemo
          ['E', 'c', 'o', 'l', 'o', 'g', 'í', 'a']) =
      normalize_answer nfdDemo isMnDemo upperDemo
        ['E', 'c', 'o', 'l', 'o', 'g', 'í', 'a'] :=
  normalize_answer_idem nfdDemo isMnDemo upperDemo
    nfdDemo_fixes_az isMnDemo_false_on_az upperDemo_fixes_az _

/-!
## Claim C4: determinism

`generate` is a pure function of the entry list (the embedding exhibits no
other input: no randomness, clock, or ambient state appears in the source),
so two runs agree componentwise.
-/

/-- C4 — Determinism: generating twice from the same entry list (the grid
size is the fixed constant `GRID_SIZE`) yields identical layouts: same grid
matrix, same `used_mask`, and the same numbered placements list. -/
theorem generate_deterministic (answers : List (List Char)) (l1 l2 : Layout)
    (h1 : generate answers = some l1) (h2 : generate answers = some l2) :
    l1.grid = l2.grid ∧ l1.used_mask = l2.used_mask ∧ l1.placements = l2.placements := by
  rw [h1] at h2
  cases h2
  exact ⟨rfl, rfl, rfl⟩

/-- The layout generated for the single entry `"A"`. -/
def aLayout : Layout := (generate [['A']]).getD ⟨[], [], []⟩

/-- Witness for C4 at the concrete one-entry list `[\"A\"]`. -/
theorem generate_deterministic_witness :
    generate [['A']] = some aLayout ∧
      (aLayout.grid = aLayout.grid ∧ aLayout.used_mask = aLayout.used_mask ∧
        aLayout.placements = aLayout.placements) :=
  ⟨rfl, generate_deterministic [['A']] aLayout aLayout rfl rfl⟩

/-!
## Claim C8: ordering policy

`sortOrder` (the embedding of `self.order = sorted(range(n),
key=…len…, reverse=True)`, a stable sort) is characterized: it is a
permutation of `range n`, pairwise ordered by strictly decreasing length
with ties broken by ascending input index.
-/

/-- The processing-order relation: `i` comes before `j` iff `i`'s answer is
strictly longer, or equally long with `i` earlier in the input. -/
def orderRel (answers : List (List Char)) (i j : Nat) : Prop :=
  ansLen answers j < ansLen answers i ∨ (ansLen answers i = ansLen answers j ∧ i < j)

theorem insOrder_perm (answers : List (List Char)) (i : Nat) :
    ∀ l : List Nat, (insOrder answers i l).Perm (i :: l) := by
  intro l
  induction l with
  | nil => exact List.Perm.refl _
  | cons j rest ih =>
    rw [insOrder]
    split
    · exact (ih.cons j).trans (List.Perm.swap i j rest)
    · exact List.Perm.refl _

theorem insOrder_mem (answers : List (List Char)) (i : Nat) (l : List Nat) (x : Nat) :
    x ∈ insOrder answers i l ↔ x = i ∨ x ∈ l :=
  by simpa using (insOrder_perm answers i l).mem_iff

theorem insOrder_pairwise (answers : List (List Char)) (i : Nat) :
    ∀ l : List Nat, l.Pairwise (orderRel answers) → (∀ j ∈ l, j < i) →
      (insOrder answers i l).Pairwise (orderRel answers) := by
  intro l
  induction l with
  | nil => intro _ _; exact List.pairwise_singleton _ _
  | cons j rest ih =>
    intro hp hlt
    rw [insOrder]
    split
    · rename_i hle
      rw [List.pairwise_cons] at hp ⊢
      refine ⟨?_, ih hp.2 (fun k hk => hlt k (by simp [hk]))⟩
      intro y hy
      rcases (insOrder_mem answers i rest y).mp hy with rfl | hmem
      · rcases Nat.lt_or_ge (ansLen answers y) (ansLen answers j) with h | h
        · exact Or.inl h
        · exact Or.inr ⟨Nat.le_antisymm h hle, hlt j (by simp)⟩
      · exact hp.1 y hmem
    · rename_i hgt
      rw [List.pairwise_cons]
      refine ⟨?_, hp⟩
      intro y hy
      have hj : ansLen answers j < ansLen answers i := Nat.lt_of_not_le hgt
      rcases List.mem_cons.mp hy with rfl | hmem
      · exact Or.inl hj
      · rcases (List.pairwise_cons.mp hp).1 y hmem with h | h
        · exact Or.inl (Nat.lt_trans h hj)
        · exact Or.inl (h.1 ▸ hj)

theorem sortOrder_loop_spec (answers : List (List Char)) :
    ∀ (idxs acc : List Nat), acc.Pairwise (orderRel answers) →
      (∀ j ∈ acc, ∀ i ∈ idxs, j < i) → idxs.Pairwise (· < ·) →
      (idxs.foldl (fun acc i => insOrder answers i acc) acc).Pairwise (orderRel answers) ∧
        (idxs.foldl (fun acc i => insOrder answers i acc) acc).Perm (acc ++ idxs) := by
  intro idxs
  induction idxs with
  | nil => intro acc h _ _; exact ⟨h, by simp⟩
  | cons i rest ih =>
    intro acc hacc hcross hinc
    rw [List.foldl_cons]
    have hacc2 : (insOrder answers i acc).Pairwise (orderRel answers) :=
      insOrder_pairwise answers i acc hacc (fun j hj => hcross j hj i (by simp))
    have hcross2 : ∀ j ∈ insOrder answers i acc, ∀ k ∈ rest, j < k := by
      intro j hj k hk
      rcases (insOrder_mem answers i acc j).mp hj with rfl | hmem
      · exact (List.pairwise_cons.mp hinc).1 k hk
      · exact hcross j hmem k (by simp [hk])
    obtain ⟨hpw, hperm⟩ := ih (insOrder answers i acc) hacc2 hcross2
      (List.pairwise_cons.mp hinc).2
    refine ⟨hpw, hperm.trans ?_⟩
    exact ((insOrder_perm answers i acc).append_right rest).trans List.perm_middle.symm

/-- C8 — Ordering policy: the index order `generate` processes entries in
(`sortOrder`, folded over by `runOrder`) is a permutation of
`0, …, n-1`, pairwise sorted by strictly decreasing normalized-answer
length, with equal lengths kept in original input order (stable). -/
theorem sortOrder_spec (answers : List (List Char)) :
    (sortOrder answers).Perm (List.range answers.length) ∧
      (sortOrder answers).Pairwise (orderRel answers) := by
  obtain ⟨hpw, hperm⟩ := sortOrder_loop_spec answers (List.range answers.length) []
    (List.Pairwise.nil) (by simp) (List.pairwise_lt_range _)
  exact ⟨by simpa using hperm, hpw⟩

/-!
## Claim C3: the legality-check contract

The definitions below transcribe the claim's declarative wording (span in
bounds; guard cells before/after the span empty whenever in bounds; no
contradicting letter; overlap = number of matching span cells), to be
compared against the translated `can_place`.
-/

/-- In-bounds test for a cell of the N×N grid. -/
def inB (r c : Int) : Bool :=
  decide (0 ≤ r ∧ r < (GRID_SIZE : Int) ∧ 0 ≤ c ∧ c < (GRID_SIZE : Int))

/-- The cell immediately before the span's start, along the word's own axis. -/
def beforePos (ori : Ori) (r c : Int) : Int × Int :=
  match ori with
  | .H => (r, c - 1)
  | .V => (r - 1, c)

/-- Per-cell compatibility: empty, or holding exactly the word's letter. -/
def headOK (g : Grid) (r c : Int) (ch : Char) : Bool :=
  match getCell g r c with
  | none => true
  | some x => decide (x = ch)

/-- The whole span lies inside the N×N grid. -/
def spanInB (ori : Ori) (r c : Int) (L : Nat) : Bool :=
  (List.range L).all fun i => inB (spanPos ori r c i).1 (spanPos ori r c i).2

/-- A guard cell (before / after the span): empty whenever it is in bounds. -/
def guardOK (g : Grid) (rc : Int × Int) : Bool :=
  !(inB rc.1 rc.2) || decide (getCell g rc.1 rc.2 = none)

/-- No span cell holds a letter differing from the word's letter at that
index. -/
def lettersOK (g : Grid) (ori : Ori) (r c : Int) (w : List Char) : Bool :=
  (List.range w.length).all fun i =>
    headOK g (spanPos ori r c i).1 (spanPos ori r c i).2 (w.getD i ' ')

/-- The number of span cells already holding the matching letter. -/
def overlapSpec (g : Grid) (ori : Ori) (r c : Int) (w : List Char) : Nat :=
  (List.range w.length).countP fun i =>
    decide (getCell g (spanPos ori r c i).1 (spanPos ori r c i).2 = some (w.getD i ' '))

/-- The claim's declarative acceptance condition for `can_place`; the guard
cell after the span's end is `spanPos ori r c w.length`. -/
def canPlaceSpec (g : Grid) (w : List Char) (r c : Int) (ori : Ori) : Bool :=
  spanInB ori r c w.length && guardOK g (beforePos ori r c) &&
    guardOK g (spanPos ori r c w.length) && lettersOK g ori r c w

theorem spanPos_zero (ori : Ori) (r c : Int) : spanPos ori r c 0 = (r, c) := by
  cases ori <;> simp [spanPos]

theorem spanPos_shift (ori : Ori) (r c : Int) (i : Nat) :
    spanPos ori (spanPos ori r c 1).1 (spanPos ori r c 1).2 i = spanPos ori r c (i + 1) := by
  cases ori <;> simp [spanPos] <;> omega

theorem lettersOK_cons (g : Grid) (ori : Ori) (r c : Int) (ch : Char) (rest : List Char) :
    lettersOK g ori r c (ch :: rest) =
      (headOK g r c ch &&
        lettersOK g ori (spanPos ori r c 1).1 (spanPos ori r c 1).2 rest) := by
  rw [lettersOK, List.length_cons, List.range_succ_eq_map, List.all_cons, List.all_map]
  congr 1
  · rw [spanPos_zero]
    simp
  · rw [lettersOK]
    congr 1
    funext i
    simp [Function.comp, spanPos_shift]

theorem overlapSpec_cons (g : Grid) (ori : Ori) (r c : Int) (ch : Char) (rest : List Char) :
    overlapSpec g ori r c (ch :: rest) =
      overlapSpec g ori (spanPos ori r c 1).1 (spanPos ori r c 1).2 rest +
        (if getCell g r c = some ch then 1 else 0) := by
  rw [overlapSpec, List.length_cons, List.range_succ_eq_map, List.countP_cons,
    List.countP_map, spanPos_zero]
  congr 1
  · rw [overlapSpec]
    congr 1
    funext i
    simp [Function.comp, spanPos_shift]
  · simp

theorem spanScan_eq (g : Grid) (ori : Ori) :
    ∀ (w : List Char) (r c : Int),
      spanScan g ori r c w =
        if lettersOK g ori r c w then some (overlapSpec g ori r c w) else none := by
  intro w
  induction w with
  | nil => intro r c; simp [spanScan, lettersOK, overlapSpec]
  | cons ch rest ih =>
    intro r c
    rw [spanScan, ih, lettersOK_cons, overlapSpec_cons]
    rcases h : getCell g r c with _ | x
    · rw [if_neg (by simp [h])]
      by_cases hl : lettersOK g ori (spanPos ori r c 1).1 (spanPos ori r c 1).2 rest
      · rw [if_pos hl]
        simp [headOK, h, hl]
      · rw [if_neg hl]
        simp [headOK, h, hl]
    · by_cases hx : x = ch
      · subst hx
        rw [if_neg (by simp)]
        by_cases hl : lettersOK g ori (spanPos ori r c 1).1 (spanPos ori r c 1).2 rest
        · rw [if_pos hl]
          simp [headOK, h, hl]
        · rw [if_neg hl]
          simp [headOK, h, hl]
      · rw [if_pos (by simp [h, hx])]
        simp [headOK, h, hx]

theorem spanInB_iff_H (r c : Int) (L : Nat) (hL : 0 < L) :
    spanInB .H r c L = true ↔
      0 ≤ r ∧ r < (GRID_SIZE : Int) ∧ 0 ≤ c ∧ c + L ≤ (GRID_SIZE : Int) := by
  rw [spanInB, List.all_eq_true]
  constructor
  · intro h
    have h0 := of_decide_eq_true (h 0 (List.mem_range.mpr hL))
    have h1 := of_decide_eq_true (h (L - 1) (List.mem_range.mpr (by omega)))
    simp only [spanPos] at h0 h1
    omega
  · intro h i hi
    rw [List.mem_range] at hi
    simp only [spanPos, inB, decide_eq_true_eq]
    omega

theorem spanInB_iff_V (r c : Int) (L : Nat) (hL : 0 < L) :
    spanInB .V r c L = true ↔
      0 ≤ c ∧ c < (GRID_SIZE : Int) ∧ 0 ≤ r ∧ r + L ≤ (GRID_SIZE : Int) := by
  rw [spanInB, List.all_eq_true]
  constructor
  · intro h
    have h0 := of_decide_eq_true (h 0 (List.mem_range.mpr hL))
    have h1 := of_decide_eq_true (h (L - 1) (List.mem_range.mpr (by omega)))
    simp only [spanPos] at h0 h1
    omega
  · intro h i hi
    rw [List.mem_range] at hi
    simp only [spanPos, inB, decide_eq_true_eq]
    omega

/-- Full characterization of `can_place` for nonempty words: it returns
`(true, overlap count)` exactly when the claim's conditions hold, else
`(false, 0)`. -/
theorem can_place_eq (g : Grid) (w : List Char) (r c : Int) (ori : Ori) (hw : w ≠ []) :
    can_place g w r c ori =
      if canPlaceSpec g w r c ori then (true, overlapSpec g ori r c w)
      else (false, 0) := by
  have hL : 0 < w.length := List.length_pos.mpr hw
  cases ori
  · rw [can_place]
    by_cases h1 : c < 0 ∨ c + (w.length : Int) > (GRID_SIZE : Int) ∨ r < 0 ∨
        (GRID_SIZE : Int) ≤ r
    · rw [if_pos h1]
      have hs : spanInB .H r c w.length = false := by
        rw [Bool.eq_false_iff]
        intro hcon
        have := (spanInB_iff_H r c w.length hL).mp hcon
        omega
      rw [if_neg (by simp [canPlaceSpec, hs])]
    · rw [if_neg h1]
      have hs : spanInB .H r c w.length = true :=
        (spanInB_iff_H r c w.length hL).mpr (by omega)
      by_cases h2 : 0 ≤ c - 1 ∧ getCell g r (c - 1) ≠ none
      · rw [if_pos h2]
        have hin : inB r (c - 1) = true := by
          rw [inB, decide_eq_true_eq]
          omega
        have hb : guardOK g (beforePos .H r c) = false := by
          rw [guardOK, beforePos]
          simp [hin, h2.2]
        rw [if_neg (by simp [canPlaceSpec, hb])]
      · rw [if_neg h2]
        have hb : guardOK g (beforePos .H r c) = true := by
          rw [guardOK, beforePos]
          rcases not_and_or.mp h2 with h | h
          · have hin : inB r (c - 1) = false := by
              rw [inB, decide_eq_false_iff_not]
              omega
            simp [hin]
          · simp [not_not.mp h]
        by_cases h3 : c + (w.length : Int) < (GRID_SIZE : Int) ∧
            getCell g r (c + (w.length : Int)) ≠ none
        · rw [if_pos h3]
          have hin : inB r (c + (w.length : Int)) = true := by
            rw [inB, decide_eq_true_eq]
            omega
          have ha : guardOK g (spanPos .H r c w.length) = false := by
            rw [guardOK, spanPos]
            simp [hin, h3.2]
          rw [if_neg (by simp [canPlaceSpec, ha])]
        · rw [if_neg h3]
          have ha : guardOK g (spanPos .H r c w.length) = true := by
            rw [guardOK, spanPos]
            rcases not_and_or.mp h3 with h | h
            · have hin : inB r (c + (w.length : Int)) = false := by
                rw [inB, decide_eq_false_iff_not]
                omega
              simp [hin]
            · simp [not_not.mp h]
          rw [spanScan_eq]
          by_cases hl : lettersOK g .H r c w
          · rw [if_pos hl, if_pos (by simp [canPlaceSpec, hs, hb, ha, hl])]
          · rw [if_neg (by simp [hl]), if_neg (by simp [canPlaceSpec, hl])]
  · rw [can_place]
    by_cases h1 : r < 0 ∨ r + (w.length : Int) > (GRID_SIZE : Int) ∨ c < 0 ∨
        (GRID_SIZE : Int) ≤ c
    · rw [if_pos h1]
      have hs : spanInB .V r c w.length = false := by
        rw [Bool.eq_false_iff]
        intro hcon
        have := (spanInB_iff_V r c w.length hL).mp hcon
        omega
      rw [if_neg (by simp [canPlaceSpec, hs])]
    · rw [if_neg h1]
      have hs : spanInB .V r c w.length = true :=
        (spanInB_iff_V r c w.length hL).mpr (by omega)
      by_cases h2 : 0 ≤ r - 1 ∧ getCell g (r - 1) c ≠ none
      · rw [if_pos h2]
        have hin : inB (r - 1) c = true := by
          rw [inB, decide_eq_true_eq]
          omega
        have hb : guardOK g (beforePos .V r c) = false := by
          rw [guardOK, beforePos]
          simp [hin, h2.2]
        rw [if_neg (by simp [canPlaceSpec, hb])]
      · rw [if_neg h2]
        have hb : guardOK g (beforePos .V r c) = true := by
          rw [guardOK, beforePos]
          rcases not_and_or.mp h2 with h | h
          · have hin : inB (r - 1) c = false := by
              rw [inB, decide_eq_false_iff_not]
              omega
            simp [hin]
          · simp [not_not.mp h]
        by_cases h3 : r + (w.length : Int) < (GRID_SIZE : Int) ∧
            getCell g (r + (w.length : Int)) c ≠ none
        · rw [if_pos h3]
          have hin : inB (r + (w.length : Int)) c = true := by
            rw [inB, decide_eq_true_eq]
            omega
          have ha : guardOK g (spanPos .V r c w.length) = false := by
            rw [guardOK, spanPos]
            simp [hin, h3.2]
          rw [if_neg (by simp [canPlaceSpec, ha])]
        · rw [if_neg h3]
          have ha : guardOK g (spanPos .V r c w.length) = true := by
            rw [guardOK, spanPos]
            rcases not_and_or.mp h3 with h | h
            · have hin : inB (r + (w.length : Int)) c = false := by
                rw [inB, decide_eq_false_iff_not]
                omega
              simp [hin]
            · simp [not_not.mp h]
          rw [spanScan_eq]
          by_cases hl : lettersOK g .V r c w
          · rw [if_pos hl, if_pos (by simp [canPlaceSpec, hs, hb, ha, hl])]
          · rw [if_neg (by simp [hl]), if_neg (by simp [canPlaceSpec, hl])]

/-- C3, counterexample to the claim as stated (universally over words): for
the empty word at `r = 0, c = 28`, `can_place` rejects (its bounds test
`c + L > GRID_SIZE` fires), while the claim's three conditions all hold
vacuously (the span is empty and both guard cells are out of bounds). -/
theorem can_place_empty_word_cex :
    (can_place initState.grid [] 0 28 .H).1 = false ∧
      canPlaceSpec initState.grid [] 0 28 .H = true := by
  constructor
  · rfl
  · rfl

/-- C3 (amended: for nonempty words) — Legality-check contract:
`can_place` accepts iff the span lies inside the grid, the cells
immediately before and after the span along the word's own axis are empty
whenever they are in bounds, and no span cell holds a differing letter
(nothing else — in particular parallel adjacency is not consulted); on
accept the returned count is the number of span cells already holding the
matching letter. -/
theorem can_place_contract (g : Grid) (w : List Char) (r c : Int) (ori : Ori)
    (hw : w ≠ []) :
    ((can_place g w r c ori).1 = true ↔ canPlaceSpec g w r c ori = true) ∧
      ((can_place g w r c ori).1 = true →
        (can_place g w r c ori).2 = overlapSpec g ori r c w) := by
  rw [can_place_eq g w r c ori hw]
  by_cases h : canPlaceSpec g w r c ori
  · rw [if_pos h]
    exact ⟨by simp [h], fun _ => rfl⟩
  · rw [if_neg h]
    simp [h]

/-- Witness for C3 (amended) at a concrete word, grid and position. -/
theorem can_place_contract_witness :
    (['A'] : List Char) ≠ [] ∧
      (((can_place initState.grid ['A'] 0 0 .H).1 = true ↔
          canPlaceSpec initState.grid ['A'] 0 0 .H = true) ∧
        ((can_place initState.grid ['A'] 0 0 .H).1 = true →
          (can_place initState.grid ['A'] 0 0 .H).2 =
            overlapSpec initState.grid .H 0 0 ['A'])) :=
  ⟨by decide, can_place_contract initState.grid ['A'] 0 0 .H (by decide)⟩

/-!
## Grid-write lemmas
-/

/-- Length of row `k` of a grid. -/
def rowLen (g : Grid) (k : Nat) : Nat := (g.getD k []).length

/-- The grid is a full N×N matrix (true of the fresh grid and preserved by
every write). -/
def Shaped (g : Grid) : Prop :=
  g.length = GRID_SIZE ∧ ∀ k < GRID_SIZE, rowLen g k = GRID_SIZE

theorem getD_set_self {α : Type} (l : List α) (i : Nat) (a d : α) (h : i < l.length) :
    (l.set i a).getD i d = a := by
  simp [List.getElem?_set_self h]

theorem getD_set_ne {α : Type} (l : List α) (i j : Nat) (a d : α) (h : i ≠ j) :
    (l.set i a).getD j d = l.getD j d := by
  simp [List.getElem?_set_ne h]

theorem setCell_eq_some (g : Grid) (r c : Int) (ch : Char) (g2 : Grid)
    (h : setCell g r c ch = some g2) :
    (0 ≤ r ∧ r < (g.length : Int) ∧ 0 ≤ c ∧ c < ((rowLen g r.toNat : Nat) : Int)) ∧
      g2 = g.set r.toNat ((g.getD r.toNat []).set c.toNat (some ch)) := by
  rw [setCell] at h
  by_cases h1 : 0 ≤ r ∧ r < (g.length : Int)
  · rw [if_pos h1] at h
    by_cases h2 : 0 ≤ c ∧ c < (((g.getD r.toNat []).length : Nat) : Int)
    · rw [if_pos h2] at h
      exact ⟨⟨h1.1, h1.2, h2.1, h2.2⟩, (Option.some.inj h).symm⟩
    · rw [if_neg h2] at h
      exact absurd h (by simp)
  · rw [if_neg h1] at h
    exact absurd h (by simp)

theorem setCell_isSome (g : Grid) (r c : Int) (ch : Char)
    (hb : 0 ≤ r ∧ r < (g.length : Int) ∧ 0 ≤ c ∧ c < ((rowLen g r.toNat : Nat) : Int)) :
    (setCell g r c ch).isSome = true := by
  rw [setCell, if_pos ⟨hb.1, hb.2.1⟩, if_pos ⟨hb.2.2.1, hb.2.2.2⟩]
  rfl

theorem setCell_shape (g : Grid) (r c : Int) (ch : Char) (g2 : Grid)
    (h : setCell g r c ch = some g2) :
    g2.length = g.length ∧ ∀ k, rowLen g2 k = rowLen g k := by
  obtain ⟨⟨hr0, hr1, hc0, hc1⟩, hg2⟩ := setCell_eq_some g r c ch g2 h
  subst hg2
  have hrn : r.toNat < g.length := by omega
  refine ⟨List.length_set _ _ _, ?_⟩
  intro k
  by_cases hk : r.toNat = k
  · subst hk
    rw [rowLen, rowLen, getD_set_self _ _ _ _ hrn, List.length_set]
  · rw [rowLen, rowLen, getD_set_ne _ _ _ _ _ hk]

theorem getCell_setCell (g : Grid) (r c : Int) (ch : Char) (g2 : Grid)
    (h : setCell g r c ch = some g2) (x y : Int) :
    getCell g2 x y = if x = r ∧ y = c then some ch else getCell g x y := by
  obtain ⟨⟨hr0, hr1, hc0, hc1⟩, hg2⟩ := setCell_eq_some g r c ch g2 h
  have hlen : g2.length = g.length := (setCell_shape g r c ch g2 h).1
  have hrn : r.toNat < g.length := by omega
  rw [rowLen] at hc1
  have hcn : c.toNat < (g.getD r.toNat []).length := by omega
  by_cases hx : 0 ≤ x ∧ x < (g.length : Int)
  · by_cases hxr : x = r
    · subst hxr
      have hrow2 : g2.getD x.toNat [] = (g.getD x.toNat []).set c.toNat (some ch) := by
        rw [hg2]
        exact getD_set_self _ _ _ _ hrn
      by_cases hyc : y = c
      · subst hyc
        rw [if_pos ⟨rfl, rfl⟩, getCell, hlen, hrow2, List.length_set, if_pos hx,
          if_pos (⟨hc0, hc1⟩ : 0 ≤ y ∧ y < ((g.getD x.toNat []).length : Int))]
        exact getD_set_self _ _ _ _ hcn
      · rw [if_neg (fun hcon => hyc hcon.2), getCell, getCell, hlen, hrow2,
          List.length_set]
        by_cases hy : 0 ≤ y ∧ y < ((g.getD x.toNat []).length : Int)
        · have hne : y.toNat ≠ c.toNat := by omega
          rw [if_pos hx, if_pos hy, if_pos hx, if_pos hy,
            getD_set_ne _ _ _ _ _ (Ne.symm hne)]
        · rw [if_pos hx, if_neg hy, if_pos hx, if_neg hy]
    · have hne : r.toNat ≠ x.toNat := by omega
      have hrow2 : g2.getD x.toNat [] = g.getD x.toNat [] := by
        rw [hg2]
        exact getD_set_ne _ _ _ _ _ hne
      rw [if_neg (fun hcon => hxr hcon.1), getCell, getCell, hlen, hrow2]
  · have hcon : ¬(x = r ∧ y = c) := fun hcon => hx (hcon.1 ▸ ⟨hr0, hr1⟩)
    rw [if_neg hcon, getCell, getCell, hlen, if_neg hx, if_neg hx]

theorem spanPos_inj (ori : Ori) (r c : Int) (i j : Nat)
    (h : spanPos ori r c i = spanPos ori r c j) : i = j := by
  cases ori <;> simp [spanPos] at h <;> omega

theorem writeSpan_shape (ori : Ori) :
    ∀ (w : List Char) (g : Grid) (m : Mask) (r c : Int) (g2 : Grid) (m2 : Mask),
      writeSpan ori g m r c w = some (g2, m2) →
      g2.length = g.length ∧ ∀ k, rowLen g2 k = rowLen g k := by
  intro w
  induction w with
  | nil =>
    intro g m r c g2 m2 h
    rw [writeSpan] at h
    have h2 := Option.some.inj h
    injection h2 with h3 h4
    subst h3
    exact ⟨rfl, fun _ => rfl⟩
  | cons ch rest ih =>
    intro g m r c g2 m2 h
    rw [writeSpan] at h
    rcases hsc : setCell g r c ch with _ | ga
    · rw [hsc] at h
      exact absurd h (by simp)
    · rw [hsc] at h
      obtain ⟨h1, h2⟩ := ih ga (setMask m r c) _ _ g2 m2 h
      obtain ⟨h3, h4⟩ := setCell_shape g r c ch ga hsc
      exact ⟨h1.trans h3, fun k => (h2 k).trans (h4 k)⟩

theorem writeSpan_isSome (ori : Ori) :
    ∀ (w : List Char) (g : Grid) (m : Mask) (r c : Int),
      (∀ i, i < w.length →
        0 ≤ (spanPos ori r c i).1 ∧ (spanPos ori r c i).1 < (g.length : Int) ∧
          0 ≤ (spanPos ori r c i).2 ∧
          (spanPos ori r c i).2 < ((rowLen g (spanPos ori r c i).1.toNat : Nat) : Int)) →
      (writeSpan ori g m r c w).isSome = true := by
  intro w
  induction w with
  | nil =>
    intro g m r c _
    rw [writeSpan]
    rfl
  | cons ch rest ih =>
    intro g m r c hb
    rw [writeSpan]
    have h0 := hb 0 (by simp)
    rw [spanPos_zero] at h0
    have hsome := setCell_isSome g r c ch h0
    rcases hsc : setCell g r c ch with _ | ga
    · rw [hsc] at hsome
      exact absurd hsome (by simp)
    · obtain ⟨hlen, hrow⟩ := setCell_shape g r c ch ga hsc
      apply ih ga (setMask m r c)
      intro i hi
      have hb2 := hb (i + 1) (by simpa using Nat.succ_lt_succ hi)
      rw [← spanPos_shift] at hb2
      rw [hlen, hrow]
      exact hb2

theorem writeSpan_getCell (ori : Ori) :
    ∀ (w : List Char) (g : Grid) (m : Mask) (r c : Int) (g2 : Grid) (m2 : Mask),
      writeSpan ori g m r c w = some (g2, m2) →
      (∀ i, i < w.length →
        getCell g2 (spanPos ori r c i).1 (spanPos ori r c i).2 = some (w.getD i ' ')) ∧
      (∀ x y : Int, (∀ i, i < w.length → (x, y) ≠ spanPos ori r c i) →
        getCell g2 x y = getCell g x y) := by
  intro w
  induction w with
  | nil =>
    intro g m r c g2 m2 h
    rw [writeSpan] at h
    have h2 := Option.some.inj h
    injection h2 with h3 h4
    subst h3
    exact ⟨fun i hi => absurd hi (by simp), fun x y _ => rfl⟩
  | cons ch rest ih =>
    intro g m r c g2 m2 h
    rw [writeSpan] at h
    rcases hsc : setCell g r c ch with _ | ga
    · rw [hsc] at h
      exact absurd h (by simp)
    · rw [hsc] at h
      obtain ⟨ih1, ih2⟩ := ih ga (setMask m r c) _ _ g2 m2 h
      have hga := getCell_setCell g r c ch ga hsc
      constructor
      · intro i hi
        match i with
        | 0 =>
          rw [spanPos_zero]
          have huntouched : ∀ j, j < rest.length →
              ((r, c) : Int × Int) ≠ spanPos ori (spanPos ori r c 1).1 (spanPos ori r c 1).2 j := by
            intro j _ hcon
            rw [spanPos_shift, ← spanPos_zero ori r c] at hcon
            exact absurd (spanPos_inj ori r c 0 (j + 1) hcon) (by omega)
          rw [ih2 r c huntouched, hga r c, if_pos ⟨rfl, rfl⟩]
          rfl
        | i + 1 =>
          have := ih1 i (by simp only [List.length_cons] at hi; omega)
          rw [spanPos_shift] at this
          rw [this]
          rfl
      · intro x y hxy
        have h2 : getCell g2 x y = getCell ga x y := by
          apply ih2
          intro i hi
          have := hxy (i + 1) (by simp only [List.length_cons]; omega)
          rw [← spanPos_shift] at this
          exact this
        have h0 := hxy 0 (by simp)
        rw [spanPos_zero] at h0
        rw [h2, hga x y, if_neg (fun hcon => h0 (by rw [Prod.mk.injEq]; exact hcon))]

/-- Under the shape invariant, an in-grid position satisfies the concrete
bounds that `setCell` checks. -/
theorem shaped_bounds (g : Grid) (hsh : Shaped g) (p : Int × Int)
    (hin : 0 ≤ p.1 ∧ p.1 < (GRID_SIZE : Int) ∧ 0 ≤ p.2 ∧ p.2 < (GRID_SIZE : Int)) :
    0 ≤ p.1 ∧ p.1 < (g.length : Int) ∧ 0 ≤ p.2 ∧
      p.2 < ((rowLen g p.1.toNat : Nat) : Int) := by
  obtain ⟨h1, h2⟩ := hsh
  have hk : p.1.toNat < GRID_SIZE := by omega
  rw [h1, h2 _ hk]
  exact hin

/-!
## The generation invariant
-/

/-- Cell `i` of a placement's span. -/
def pcell (p : Placement) (i : Nat) : Int × Int := spanPos p.ori p.row p.col i

theorem pcell_H (p : Placement) (hp : p.ori = .H) (i : Nat) :
    pcell p i = (p.row, p.col + (i : Int)) := by
  rw [pcell, hp]
  rfl

theorem pcell_V (p : Placement) (hp : p.ori = .V) (i : Nat) :
    pcell p i = (p.row + (i : Int), p.col) := by
  rw [pcell, hp]
  rfl

theorem mem_cells_iff (p : Placement) (q : Int × Int) :
    q ∈ p.cells ↔ ∃ i, i < p.length ∧ q = pcell p i := by
  rcases hp : p.ori with _ | _
  · simp only [Placement.cells, hp]
    constructor
    · intro hq
      obtain ⟨i, hi, hqe⟩ := List.mem_map.mp hq
      exact ⟨i, List.mem_range.mp hi, by rw [pcell_H p hp, ← hqe]⟩
    · rintro ⟨i, hi, hq⟩
      exact List.mem_map.mpr ⟨i, List.mem_range.mpr hi, by rw [hq, pcell_H p hp]⟩
  · simp only [Placement.cells, hp]
    constructor
    · intro hq
      obtain ⟨i, hi, hqe⟩ := List.mem_map.mp hq
      exact ⟨i, List.mem_range.mp hi, by rw [pcell_V p hp, ← hqe]⟩
    · rintro ⟨i, hi, hq⟩
      exact List.mem_map.mpr ⟨i, List.mem_range.mpr hi, by rw [hq, pcell_V p hp]⟩

theorem getD_replicate {α : Type} (n i : Nat) (a d : α) :
    (List.replicate n a).getD i d = if i < n then a else d := by
  rw [List.getD_eq_getElem?_getD, List.getElem?_replicate]
  split <;> rfl

theorem getCell_initState (x y : Int) : getCell initState.grid x y = none := by
  rw [getCell]
  split
  · split
    · rw [show initState.grid = List.replicate GRID_SIZE
          (List.replicate GRID_SIZE (none : Option Char)) from rfl, getD_replicate]
      split
      · rw [getD_replicate]
        split <;> rfl
      · rfl
    · rfl
  · rfl

theorem initState_shaped : Shaped initState.grid := by
  constructor
  · exact List.length_replicate _ _
  · intro k hk
    rw [rowLen, show initState.grid = List.replicate GRID_SIZE
        (List.replicate GRID_SIZE (none : Option Char)) from rfl, getD_replicate,
      if_pos hk]
    exact List.length_replicate _ _

theorem canPlaceSpec_parts (g : Grid) (w : List Char) (r c : Int) (ori : Ori)
    (h : canPlaceSpec g w r c ori = true) :
    spanInB ori r c w.length = true ∧ lettersOK g ori r c w = true := by
  rw [canPlaceSpec] at h
  simp only [Bool.and_eq_true] at h
  exact ⟨h.1.1.1, h.2⟩

/-- An accepted placement's span lies inside the N×N grid. -/
theorem can_place_true_span_inB (g : Grid) (w : List Char) (r c : Int) (ori : Ori)
    (h : (can_place g w r c ori).1 = true) :
    ∀ i, i < w.length →
      0 ≤ (spanPos ori r c i).1 ∧ (spanPos ori r c i).1 < (GRID_SIZE : Int) ∧
        0 ≤ (spanPos ori r c i).2 ∧ (spanPos ori r c i).2 < (GRID_SIZE : Int) := by
  intro i hi
  have hw : w ≠ [] := by
    intro hcon
    subst hcon
    simp at hi
  rw [can_place_eq g w r c ori hw] at h
  by_cases hs : canPlaceSpec g w r c ori
  · have hin := (canPlaceSpec_parts g w r c ori hs).1
    rw [spanInB, List.all_eq_true] at hin
    have := hin i (List.mem_range.mpr hi)
    rw [inB, decide_eq_true_eq] at this
    exact this
  · rw [if_neg hs] at h
    exact absurd h (by simp)

/-- An accepted placement's span cells are empty or already match the word. -/
theorem can_place_true_compat (g : Grid) (w : List Char) (r c : Int) (ori : Ori)
    (h : (can_place g w r c ori).1 = true) :
    ∀ i, i < w.length →
      getCell g (spanPos ori r c i).1 (spanPos ori r c i).2 = none ∨
        getCell g (spanPos ori r c i).1 (spanPos ori r c i).2 = some (w.getD i ' ') := by
  intro i hi
  have hw : w ≠ [] := by
    intro hcon
    subst hcon
    simp at hi
  rw [can_place_eq g w r c ori hw] at h
  by_cases hs : canPlaceSpec g w r c ori
  · have hlet := (canPlaceSpec_parts g w r c ori hs).2
    rw [lettersOK, List.all_eq_true] at hlet
    have := hlet i (List.mem_range.mpr hi)
    rw [headOK] at this
    rcases hc : getCell g (spanPos ori r c i).1 (spanPos ori r c i).2 with _ | x
    · exact Or.inl rfl
    · rw [hc] at this
      simp only [decide_eq_true_eq] at this
      exact Or.inr (by rw [this])
  · rw [if_neg hs] at h
    exact absurd h (by simp)

theorem eq_of_mem_map_nodup {β : Type} (f : β → Nat) :
    ∀ (l : List β), (l.map f).Nodup → ∀ x y, x ∈ l → y ∈ l → f x = f y → x = y := by
  intro l
  induction l with
  | nil => intro _ x y hx _ _; exact absurd hx (by simp)
  | cons b bs ih =>
    intro hnd x y hx hy hf
    rw [List.map_cons, List.nodup_cons] at hnd
    rcases List.mem_cons.mp hx with rfl | hx2
    · rcases List.mem_cons.mp hy with rfl | hy2
      · rfl
      · exact absurd (hf ▸ List.mem_map_of_mem f hy2) hnd.1
    · rcases List.mem_cons.mp hy with rfl | hy2
      · exact absurd (hf ▸ List.mem_map_of_mem f hx2) hnd.1
      · exact ih hnd.2 x y hx2 hy2 hf

/-- The invariant maintained by every commit of the generation loop. -/
structure Inv (answers : List (List Char)) (st : State) : Prop where
  shape : Shaped st.grid
  ids_lt : ∀ p ∈ st.placements, p.word_id < answers.length
  nodup : (st.placements.map Placement.word_id).Nodup
  len_eq : ∀ p ∈ st.placements, p.length = (answers.getD p.word_id []).length
  letters : ∀ p ∈ st.placements, ∀ i, i < p.length →
    getCell st.grid (pcell p i).1 (pcell p i).2 =
      some ((answers.getD p.word_id []).getD i ' ')
  cover : ∀ x y : Int, (getCell st.grid x y).isSome = true →
    ∃ p ∈ st.placements, ∃ i, i < p.length ∧ (x, y) = pcell p i

theorem inv_initState (answers : List (List Char)) : Inv answers initState := by
  refine ⟨initState_shaped, ?_, ?_, ?_, ?_, ?_⟩
  · intro p hp
    exact absurd hp (by simp [initState])
  · simp [initState]
  · intro p hp
    exact absurd hp (by simp [initState])
  · intro p hp
    exact absurd hp (by simp [initState])
  · intro x y h
    rw [getCell_initState] at h
    exact absurd h (by simp)

theorem place_eq_some (answers : List (List Char)) (st : State) (id : Nat) (r c : Int)
    (ori : Ori) (st2 : State) (h : place answers st id r c ori = some st2) :
    ∃ g2 m2, writeSpan ori st.grid st.used_mask r c (answers.getD id []) = some (g2, m2) ∧
      st2 = ⟨g2, m2, st.placements ++ [⟨id, r, c, ori, (answers.getD id []).length⟩]⟩ := by
  simp only [place] at h
  rcases hw : writeSpan ori st.grid st.used_mask r c (answers.getD id []) with _ | ⟨g2, m2⟩
  · rw [hw] at h
    exact absurd h (by simp)
  · rw [hw] at h
    exact ⟨g2, m2, rfl, (Option.some.inj h).symm⟩

/-- Committing a placement whose span cells are all compatible with the
current grid (empty or already matching) preserves the invariant; the new
placement list is the old one plus the one new record. -/
theorem place_preserves_core (answers : List (List Char)) (st : State) (id : Nat)
    (r c : Int) (ori : Ori) (st2 : State) (hinv : Inv answers st)
    (hid : id < answers.length) (hfresh : ∀ p ∈ st.placements, p.word_id ≠ id)
    (hcompat : ∀ i, i < (answers.getD id []).length →
      getCell st.grid (spanPos ori r c i).1 (spanPos ori r c i).2 = none ∨
        getCell st.grid (spanPos ori r c i).1 (spanPos ori r c i).2 =
          some ((answers.getD id []).getD i ' '))
    (h : place answers st id r c ori = some st2) :
    Inv answers st2 ∧
      st2.placements = st.placements ++ [⟨id, r, c, ori, (answers.getD id []).length⟩] := by
  obtain ⟨g2, m2, hws, hst2⟩ := place_eq_some answers st id r c ori st2 h
  obtain ⟨ws1, ws2⟩ := writeSpan_getCell ori (answers.getD id []) st.grid st.used_mask r c
    g2 m2 hws
  obtain ⟨wl, wr⟩ := writeSpan_shape ori (answers.getD id []) st.grid st.used_mask r c
    g2 m2 hws
  subst hst2
  refine ⟨⟨?_, ?_, ?_, ?_, ?_, ?_⟩, rfl⟩
  · exact ⟨wl.trans hinv.shape.1, fun k hk => (wr k).trans (hinv.shape.2 k hk)⟩
  · intro p hp
    rcases List.mem_append.mp hp with hp | hp
    · exact hinv.ids_lt p hp
    · rw [List.mem_singleton.mp hp]
      exact hid
  · rw [List.map_append]
    rw [List.nodup_append]
    refine ⟨hinv.nodup, List.nodup_singleton _, ?_⟩
    intro a ha hb
    rw [List.map_singleton, List.mem_singleton] at hb
    obtain ⟨p, hp, hpa⟩ := List.mem_map.mp ha
    exact hfresh p hp (hpa.trans hb)
  · intro p hp
    rcases List.mem_append.mp hp with hp | hp
    · exact hinv.len_eq p hp
    · rw [List.mem_singleton.mp hp]
  · intro p hp i hi
    rcases List.mem_append.mp hp with hp | hp
    · by_cases hins : ∃ k, k < (answers.getD id []).length ∧ pcell p i = spanPos ori r c k
      · obtain ⟨k, hk, hpk⟩ := hins
        have hnew := ws1 k hk
        have hold := hinv.letters p hp i hi
        rcases hcompat k hk with hc | hc
        · rw [hpk] at hold
          rw [hold] at hc
          exact absurd hc (by simp)
        · rw [hpk] at hold ⊢
          rw [hnew, ← hc, hold]
      · push_neg at hins
        rw [ws2 (pcell p i).1 (pcell p i).2 ?_]
        · exact hinv.letters p hp i hi
        · intro k hk hcon
          exact hins k hk (by rw [← hcon])
    · rw [List.mem_singleton.mp hp] at hi ⊢
      exact ws1 i hi
  · intro x y hxy
    by_cases hins : ∃ k, k < (answers.getD id []).length ∧ (x, y) = spanPos ori r c k
    · obtain ⟨k, hk, hpk⟩ := hins
      exact ⟨⟨id, r, c, ori, (answers.getD id []).length⟩,
        List.mem_append.mpr (Or.inr (by simp)), k, hk, hpk⟩
    · push_neg at hins
      rw [ws2 x y hins] at hxy
      obtain ⟨p, hp, k, hk, hpk⟩ := hinv.cover x y hxy
      exact ⟨p, List.mem_append.mpr (Or.inl hp), k, hk, hpk⟩

/-!
## Every committed placement passed the legality check
-/

/-- A candidate is legal for the current grid. -/
def CandOK (g : Grid) (word : List Char) (cd : Cand) : Prop :=
  (can_place g word cd.2.1 cd.2.2.1 cd.2.2.2).1 = true

/-- The tracked best candidate, when present, is legal. -/
def OptOK (g : Grid) (word : List Char) : Option Cand → Prop
  | none => True
  | some cd => CandOK g word cd

theorem better_ok (g : Grid) (word : List Char) (best : Option Cand) (cand : Cand)
    (hb : OptOK g word best) (hc : CandOK g word cand) :
    OptOK g word (better best cand) := by
  rcases best with _ | b
  · exact hc
  · rw [better]
    split
    · exact hc
    · exact hb

theorem candStep_ok (g : Grid) (word : List Char) (r c : Int) (cell : Char)
    (best : Option Cand) (jch : Nat × Char) (hb : OptOK g word best) :
    OptOK g word (candStep g word r c cell best jch) := by
  simp only [candStep]
  by_cases h1 : jch.2 ≠ cell
  · rw [if_pos h1]
    exact hb
  · rw [if_neg h1]
    by_cases hV : (can_place g word (r - (jch.1 : Int)) c .V).1 = true
    · rw [if_pos hV]
      by_cases hH : (can_place g word r (c - (jch.1 : Int)) .H).1 = true
      · rw [if_pos hH]
        exact better_ok _ _ _ _ (better_ok _ _ _ _ hb hH) hV
      · rw [if_neg hH]
        exact better_ok _ _ _ _ hb hV
    · rw [if_neg hV]
      by_cases hH : (can_place g word r (c - (jch.1 : Int)) .H).1 = true
      · rw [if_pos hH]
        exact better_ok _ _ _ _ hb hH
      · rw [if_neg hH]
        exact hb

theorem candLoop_ok (g : Grid) (word : List Char) (r c : Int) (cell : Char) :
    ∀ (l : List (Nat × Char)) (best : Option Cand), OptOK g word best →
      OptOK g word (candLoop g word r c cell l best) := by
  intro l
  induction l with
  | nil => intro best hb; exact hb
  | cons jch rest ih =>
    intro best hb
    rw [candLoop]
    have hstep := candStep_ok g word r c cell best jch hb
    rcases h : candStep g word r c cell best jch with _ | cd
    · exact ih none trivial
    · rw [h] at hstep
      exact ih (some cd) hstep

theorem cellLoop_ok (g : Grid) (word : List Char) :
    ∀ (l : List (Nat × Nat)) (best : Option Cand), OptOK g word best →
      OptOK g word (cellLoop g word l best) := by
  intro l
  induction l with
  | nil => intro best hb; exact hb
  | cons rc rest ih =>
    intro best hb
    rw [cellLoop]
    rcases hg : getCell g (rc.1 : Int) (rc.2 : Int) with _ | cell
    · rcases best with _ | b
      · exact ih none trivial
      · exact ih (some b) hb
    · have hstep : OptOK g word (candsAt g word (rc.1 : Int) (rc.2 : Int) cell best) :=
        candLoop_ok g word _ _ cell word.enum best hb
      show OptOK g word
        (match candsAt g word (rc.1 : Int) (rc.2 : Int) cell best with
          | none => cellLoop g word rest none
          | some cd => cellLoop g word rest (some cd))
      rcases h : candsAt g word (rc.1 : Int) (rc.2 : Int) cell best with _ | cd
      · exact ih none trivial
      · rw [h] at hstep
        exact ih (some cd) hstep

theorem bestCandidate_ok (g : Grid) (word : List Char) (cd : Cand)
    (h : bestCandidate g word = some cd) : CandOK g word cd := by
  have := cellLoop_ok g word rowMajor none trivial
  rw [bestCandidate] at h
  rw [h] at this
  exact this

theorem findSome?_some {α β : Type} (f : α → Option β) :
    ∀ (l : List α) (b : β), l.findSome? f = some b → ∃ a ∈ l, f a = some b := by
  intro l
  induction l with
  | nil => intro b h; exact absurd h (by simp)
  | cons a rest ih =>
    intro b h
    rw [List.findSome?_cons] at h
    rcases hf : f a with _ | b2
    · rw [hf] at h
      obtain ⟨a2, ha2, hfa2⟩ := ih b h
      exact ⟨a2, by simp [ha2], hfa2⟩
    · rw [hf] at h
      exact ⟨a, by simp, hf.trans h⟩

theorem scanOri_ok (g : Grid) (word : List Char) (oo : Ori) (rc : Int × Int)
    (h : scanOri g word oo = some rc) : (can_place g word rc.1 rc.2 oo).1 = true := by
  rw [scanOri] at h
  obtain ⟨r, _, hr⟩ := findSome?_some _ _ _ h
  obtain ⟨c, _, hc⟩ := findSome?_some _ _ _ hr
  by_cases hok : (can_place g word (r : Int) (c : Int) oo).1 = true
  · rw [if_pos hok] at hc
    rw [← Option.some.inj hc]
    exact hok
  · rw [if_neg hok] at hc
    exact absurd hc (by simp)

/-- Everything `placeWord` does: either it commits one legality-checked
placement, or it leaves the state unchanged (silent skip). -/
theorem placeWord_cases (answers : List (List Char)) (st : State) (id : Nat) (st2 : State)
    (h : placeWord answers st id = some st2) :
    (∃ r c ori, (can_place st.grid (answers.getD id []) r c ori).1 = true ∧
      place answers st id r c ori = some st2) ∨ st2 = st := by
  have hfb : fallback answers st id (answers.getD id []) = some st2 →
      (∃ r c ori, (can_place st.grid (answers.getD id []) r c ori).1 = true ∧
        place answers st id r c ori = some st2) ∨ st2 = st := by
    intro hf
    rw [fallback] at hf
    rcases hH : scanOri st.grid (answers.getD id []) .H with _ | rc
    · rw [hH] at hf
      rcases hV : scanOri st.grid (answers.getD id []) .V with _ | rc
      · rw [hV] at hf
        exact Or.inr (Option.some.inj hf).symm
      · rw [hV] at hf
        exact Or.inl ⟨rc.1, rc.2, .V, scanOri_ok _ _ _ _ hV, hf⟩
    · rw [hH] at hf
      exact Or.inl ⟨rc.1, rc.2, .H, scanOri_ok _ _ _ _ hH, hf⟩
  simp only [placeWord] at h
  rcases hb : bestCandidate st.grid (answers.getD id []) with _ | cd
  · rw [hb] at h
    exact hfb h
  · rw [hb] at h
    have h2 : (if 0 < cd.1.1 then place answers st id cd.2.1 cd.2.2.1 cd.2.2.2
        else fallback answers st id (answers.getD id [])) = some st2 := h
    by_cases hs : 0 < cd.1.1
    · rw [if_pos hs] at h2
      exact Or.inl ⟨cd.2.1, cd.2.2.1, cd.2.2.2, bestCandidate_ok _ _ cd hb, h2⟩
    · rw [if_neg hs] at h2
      exact hfb h2

theorem placeWord_preserves (answers : List (List Char)) (st : State) (id : Nat)
    (st2 : State) (hinv : Inv answers st) (hid : id < answers.length)
    (hfresh : ∀ p ∈ st.placements, p.word_id ≠ id)
    (h : placeWord answers st id = some st2) :
    Inv answers st2 ∧ ∀ p ∈ st2.placements, p ∈ st.placements ∨ p.word_id = id := by
  rcases placeWord_cases answers st id st2 h with ⟨r, c, ori, hok, hpl⟩ | rfl
  · obtain ⟨hinv2, hps⟩ := place_preserves_core answers st id r c ori st2 hinv hid hfresh
      (can_place_true_compat _ _ _ _ _ hok) hpl
    refine ⟨hinv2, ?_⟩
    intro p hp
    rw [hps] at hp
    rcases List.mem_append.mp hp with hp | hp
    · exact Or.inl hp
    · right
      rw [List.mem_singleton.mp hp]
  · exact ⟨hinv, fun p hp => Or.inl hp⟩

theorem seedPlace_preserves (answers : List (List Char)) (w0 : Nat) (s1 : State)
    (hid : w0 < answers.length) (h : seedPlace answers initState w0 = some s1) :
    Inv answers s1 ∧ ∀ p ∈ s1.placements, p.word_id = w0 := by
  simp only [seedPlace] at h
  obtain ⟨hinv2, hps⟩ := place_preserves_core answers initState w0 _ _ .H s1
    (inv_initState answers) hid (fun p hp => absurd hp (by simp [initState]))
    (fun i _ => Or.inl (getCell_initState _ _)) h
  refine ⟨hinv2, ?_⟩
  intro p hp
  rw [hps] at hp
  rcases List.mem_append.mp hp with hp | hp
  · exact absurd hp (by simp [initState])
  · rw [List.mem_singleton.mp hp]

theorem loop_preserves (answers : List (List Char)) :
    ∀ (rest : List Nat) (st : State), (∀ id ∈ rest, id < answers.length) → rest.Nodup →
      Inv answers st → (∀ p ∈ st.placements, p.word_id ∉ rest) →
      ∀ st2, rest.foldlM (placeWord answers) st = some st2 →
      Inv answers st2 ∧
        ∀ p ∈ st2.placements, p ∈ st.placements ∨ p.word_id ∈ rest := by
  intro rest
  induction rest with
  | nil =>
    intro st _ _ hinv _ st2 h
    have h2 : some st = some st2 := h
    rw [← Option.some.inj h2]
    exact ⟨hinv, fun p hp => Or.inl hp⟩
  | cons id rest ih =>
    intro st hlt hnd hinv hfresh st2 h
    rw [List.foldlM_cons] at h
    rcases hp1 : placeWord answers st id with _ | st1
    · rw [hp1] at h
      exact absurd h (by simp)
    · rw [hp1] at h
      have h2 : rest.foldlM (placeWord answers) st1 = some st2 := h
      have hfr : ∀ p ∈ st.placements, p.word_id ≠ id := fun p hp hcon =>
        hfresh p hp (by rw [hcon]; exact List.mem_cons_self id rest)
      obtain ⟨hinv1, hmem1⟩ := placeWord_preserves answers st id st1 hinv
        (hlt id (by simp)) hfr hp1
      have hnd2 := List.nodup_cons.mp hnd
      have hfresh1 : ∀ p ∈ st1.placements, p.word_id ∉ rest := by
        intro p hp
        rcases hmem1 p hp with hmem | hmem
        · intro hcon
          exact hfresh p hmem (by simp [hcon])
        · rw [hmem]
          exact hnd2.1
      obtain ⟨hinv2, hmem2⟩ := ih st1 (fun i hi => hlt i (by simp [hi])) hnd2.2 hinv1
        hfresh1 st2 h2
      refine ⟨hinv2, ?_⟩
      intro p hp
      rcases hmem2 p hp with hmem | hmem
      · rcases hmem1 p hmem with hmem3 | hmem3
        · exact Or.inl hmem3
        · exact Or.inr (by simp [hmem3])
      · exact Or.inr (by simp [hmem])

/-!
## The numbering step
-/

theorem insPlace_perm (p : Placement) :
    ∀ l : List Placement, (insPlace p l).Perm (p :: l) := by
  intro l
  induction l with
  | nil => exact List.Perm.refl _
  | cons q rest ih =>
    rw [insPlace]
    split
    · exact (ih.cons q).trans (List.Perm.swap p q rest)
    · exact List.Perm.refl _

theorem sortPlacements_loop_perm :
    ∀ (l acc : List Placement),
      (l.foldl (fun acc p => insPlace p acc) acc).Perm (acc ++ l) := by
  intro l
  induction l with
  | nil => intro acc; simp
  | cons p rest ih =>
    intro acc
    rw [List.foldl_cons]
    exact (ih (insPlace p acc)).trans
      (((insPlace_perm p acc).append_right rest).trans List.perm_middle.symm)

theorem sortPlacements_perm (ps : List Placement) : (sortPlacements ps).Perm ps := by
  have := sortPlacements_loop_perm ps []
  rw [sortPlacements]
  simpa using this

theorem numberFrom_map_snd : ∀ (n : Nat) (ps : List Placement),
    (numberFrom n ps).map Prod.snd = ps := by
  intro n ps
  induction ps generalizing n with
  | nil => rfl
  | cons p rest ih => rw [numberFrom, List.map_cons, ih]

theorem numberFrom_map_fst : ∀ (n : Nat) (ps : List Placement),
    (numberFrom n ps).map Prod.fst = List.range' n ps.length := by
  intro n ps
  induction ps generalizing n with
  | nil => rfl
  | cons p rest ih =>
    rw [numberFrom, List.map_cons, ih, List.length_cons, List.range'_succ]

theorem numberFrom_length (n : Nat) (ps : List Placement) :
    (numberFrom n ps).length = ps.length := by
  have := congrArg List.length (numberFrom_map_snd n ps)
  rw [List.length_map] at this
  exact this

theorem mem_numberFrom_of_mem : ∀ (n : Nat) (ps : List Placement) (p : Placement),
    p ∈ ps → ∃ k, (k, p) ∈ numberFrom n ps := by
  intro n ps
  induction ps generalizing n with
  | nil => intro p hp; exact absurd hp (by simp)
  | cons q rest ih =>
    intro p hp
    rcases List.mem_cons.mp hp with rfl | hp2
    · exact ⟨n, by rw [numberFrom]; simp⟩
    · obtain ⟨k, hk⟩ := ih (n + 1) p hp2
      exact ⟨k, by rw [numberFrom]; simp [hk]⟩

theorem snd_mem_of_mem_numberFrom (n : Nat) (ps : List Placement) (np : Nat × Placement)
    (h : np ∈ numberFrom n ps) : np.2 ∈ ps := by
  rw [← numberFrom_map_snd n ps]
  exact List.mem_map_of_mem Prod.snd h

/-!
## The master theorem: every generated layout satisfies the invariant
-/

/-- The invariant holds for every state `runOrder` produces from a
duplicate-free, in-range id list — in particular for the state after every
individual commit of the generation loop (a prefix of the order). -/
theorem runOrder_inv (answers : List (List Char)) (l : List Nat) (hnd : l.Nodup)
    (hlt : ∀ id ∈ l, id < answers.length) (st : State)
    (h : runOrder answers l = some st) : Inv answers st := by
  rcases l with _ | ⟨w0, rest⟩
  · have h2 : some initState = some st := h
    rw [← Option.some.inj h2]
    exact inv_initState answers
  · rw [runOrder] at h
    rcases hs : seedPlace answers initState w0 with _ | s1
    · rw [hs] at h
      exact absurd h (by simp)
    · rw [hs] at h
      obtain ⟨hinv1, hone⟩ := seedPlace_preserves answers w0 s1 (hlt w0 (by simp)) hs
      have hnd2 := List.nodup_cons.mp hnd
      exact (loop_preserves answers rest s1 (fun i hi => hlt i (by simp [hi])) hnd2.2
        hinv1 (fun p hp => by rw [hone p hp]; exact hnd2.1) st h).1

theorem sortOrder_nodup (answers : List (List Char)) : (sortOrder answers).Nodup :=
  (sortOrder_spec answers).1.nodup_iff.mpr (List.nodup_range _)

theorem sortOrder_mem_lt (answers : List (List Char)) :
    ∀ id ∈ sortOrder answers, id < answers.length := fun _ hid =>
  List.mem_range.mp ((sortOrder_spec answers).1.mem_iff.mp hid)

/-- The invariant after the first `k` iterations of the generation loop. -/
theorem runOrder_take_inv (answers : List (List Char)) (k : Nat) (st : State)
    (h : runOrder answers ((sortOrder answers).take k) = some st) :
    Inv answers st :=
  runOrder_inv answers _ ((sortOrder_nodup answers).sublist (List.take_sublist k _))
    (fun id hid => sortOrder_mem_lt answers id ((List.take_subset k _) hid)) st h

theorem generate_spec (answers : List (List Char)) (layout : Layout)
    (h : generate answers = some layout) :
    ∃ st : State, Inv answers st ∧ layout = finalize st := by
  rw [generate] at h
  rcases hr : runOrder answers (sortOrder answers) with _ | st
  · rw [hr] at h
    exact absurd h (by simp)
  · rw [hr] at h
    exact ⟨st, runOrder_inv answers _ (sortOrder_nodup answers)
      (sortOrder_mem_lt answers) st hr,
      by rw [Option.map_some'] at h; exact (Option.some.inj h).symm⟩

/-- Letter agreement between any two placements of an invariant state. -/
theorem inv_letter_agreement (answers : List (List Char)) (st : State)
    (hinv : Inv answers st) (p q : Placement) (hp : p ∈ st.placements)
    (hq : q ∈ st.placements) (i j : Nat) (hi : i < p.length) (hj : j < q.length)
    (hcell : pcell p i = pcell q j) :
    (answers.getD p.word_id []).getD i ' ' = (answers.getD q.word_id []).getD j ' ' := by
  have h1 := hinv.letters p hp i hi
  have h2 := hinv.letters q hq j hj
  rw [hcell] at h1
  exact Option.some.inj (h1.symm.trans h2)

/-- Transfer: every numbered placement of the layout is a placement of the
final state, and conversely. -/
theorem layout_mem_iff (st : State) (p : Placement) :
    (∃ k, (k, p) ∈ (finalize st).placements) ↔ p ∈ st.placements := by
  constructor
  · rintro ⟨k, hk⟩
    exact (sortPlacements_perm st.placements).mem_iff.mp
      (snd_mem_of_mem_numberFrom 1 _ (k, p) hk)
  · intro hp
    exact mem_numberFrom_of_mem 1 _ p
      ((sortPlacements_perm st.placements).mem_iff.mpr hp)

/-!
## Claims C1, C2, C9 on generated layouts
-/

/-- C1 — Letter-agreement invariant: after generation, and after every
individual commit during generation (the state after the first `k` loop
iterations), any two distinct placements assigning letters to the same cell
(cell `i` of the first span is cell `j` of the second) agree: letter `i` of
the first answer equals letter `j` of the second. -/
theorem letter_agreement (answers : List (List Char)) :
    (∀ (k : Nat) (st : State),
      runOrder answers ((sortOrder answers).take k) = some st →
      ∀ p q, p ∈ st.placements → q ∈ st.placements → p ≠ q →
        ∀ i j, i < p.length → j < q.length → pcell p i = pcell q j →
          (answers.getD p.word_id []).getD i ' ' =
            (answers.getD q.word_id []).getD j ' ') ∧
    (∀ (layout : Layout) (np nq : Nat × Placement),
      generate answers = some layout →
      np ∈ layout.placements → nq ∈ layout.placements → np ≠ nq →
        ∀ i j, i < np.2.length → j < nq.2.length → pcell np.2 i = pcell nq.2 j →
          (answers.getD np.2.word_id []).getD i ' ' =
            (answers.getD nq.2.word_id []).getD j ' ') := by
  constructor
  · intro k st h p q hp hq _ i j hi hj hcell
    exact inv_letter_agreement answers st (runOrder_take_inv answers k st h)
      p q hp hq i j hi hj hcell
  · intro layout np nq h hp hq _ i j hi hj hcell
    obtain ⟨st, hinv, rfl⟩ := generate_spec answers layout h
    exact inv_letter_agreement answers st hinv np.2 nq.2
      ((layout_mem_iff st np.2).mp ⟨np.1, hp⟩)
      ((layout_mem_iff st nq.2).mp ⟨nq.1, hq⟩) i j hi hj hcell

theorem ids_complete (n : Nat) : ∀ ids : List Nat, ids.Nodup → (∀ i ∈ ids, i < n) →
    ids.length = n → ∀ i, i < n → i ∈ ids := by
  intro ids hnd hlt hlen i hi
  have hsub : ids.toFinset ⊆ Finset.range n := by
    intro x hx
    rw [Finset.mem_range]
    exact hlt x (List.mem_toFinset.mp hx)
  have hcard : (Finset.range n).card ≤ ids.toFinset.card := by
    rw [Finset.card_range, List.toFinset_card_of_nodup hnd, hlen]
  have heq := Finset.eq_of_subset_of_card_le hsub hcard
  have : i ∈ ids.toFinset := by
    rw [heq]
    exact Finset.mem_range.mpr hi
  exact List.mem_toFinset.mp this

/-- The word-id list of a generated layout, duplicate-free and bounded. -/
theorem layout_ids_nodup (answers : List (List Char)) (layout : Layout)
    (h : generate answers = some layout) :
    (layout.placements.map fun np => np.2.word_id).Nodup ∧
      (∀ np ∈ layout.placements, np.2.word_id < answers.length) := by
  obtain ⟨st, hinv, rfl⟩ := generate_spec answers layout h
  constructor
  · have hmap : (finalize st).placements.map (fun np => np.2.word_id) =
        ((finalize st).placements.map Prod.snd).map Placement.word_id := by
      rw [List.map_map]
      rfl
    rw [hmap]
    show ((numberFrom 1 (sortPlacements st.placements)).map Prod.snd).map
        Placement.word_id |>.Nodup
    rw [numberFrom_map_snd]
    exact ((sortPlacements_perm st.placements).map Placement.word_id).nodup_iff.mpr
      hinv.nodup
  · intro np hnp
    exact hinv.ids_lt np.2 ((layout_mem_iff st np.2).mp ⟨np.1, hnp⟩)

/-- C2 — Completeness (when no entry was dropped, i.e. the layout holds as
many placements as there are entries): every entry id has exactly one
placement, its length is the normalized answer's length, and each grid cell
of its span holds the corresponding answer letter. -/
theorem completeness (answers : List (List Char)) (layout : Layout)
    (h : generate answers = some layout)
    (hfull : layout.placements.length = answers.length) :
    ∀ (id : Nat) (w : List Char), answers[id]? = some w →
      ∃ np, np ∈ layout.placements ∧ np.2.word_id = id ∧ np.2.length = w.length ∧
        (∀ i, i < w.length →
          getCell layout.grid (pcell np.2 i).1 (pcell np.2 i).2 = some (w.getD i ' ')) ∧
        ∀ nq ∈ layout.placements, nq.2.word_id = id → nq = np := by
  intro id w hw
  obtain ⟨hid, hwv⟩ := List.getElem?_eq_some.mp hw
  have hgetD : answers.getD id [] = w := by
    rw [List.getD_eq_getElem?_getD, hw]
    rfl
  obtain ⟨hnd, hlt⟩ := layout_ids_nodup answers layout h
  have hmem : id ∈ layout.placements.map fun np => np.2.word_id := by
    apply ids_complete answers.length _ hnd
      (fun i hi => by
        obtain ⟨np, hnp, hni⟩ := List.mem_map.mp hi
        exact hni ▸ hlt np hnp)
      (by rw [List.length_map, hfull]) id hid
  obtain ⟨np, hnp, hni⟩ := List.mem_map.mp hmem
  obtain ⟨st, hinv, hlay⟩ := generate_spec answers layout h
  have hp2 : np.2 ∈ st.placements := by
    rw [hlay] at hnp
    exact (layout_mem_iff st np.2).mp ⟨np.1, hnp⟩
  have hlen2 : np.2.length = w.length := by
    rw [hinv.len_eq np.2 hp2, hni, hgetD]
  refine ⟨np, hnp, hni, hlen2, ?_, ?_⟩
  · intro i hi
    have := hinv.letters np.2 hp2 i (by rw [hlen2]; exact hi)
    rw [hni, hgetD] at this
    rw [hlay]
    exact this
  · intro nq hnq hqi
    exact eq_of_mem_map_nodup _ layout.placements hnd nq np hnq hnp (hqi.trans hni.symm)

/-- C9 — Coverage: in a generated layout, a grid cell holds a letter iff it
belongs to the span (`Placement.cells`) of at least one placement. -/
theorem coverage (answers : List (List Char)) (layout : Layout)
    (h : generate answers = some layout) :
    ∀ x y : Int, (getCell layout.grid x y).isSome = true ↔
      ∃ np ∈ layout.placements, (x, y) ∈ np.2.cells := by
  obtain ⟨st, hinv, rfl⟩ := generate_spec answers layout h
  intro x y
  constructor
  · intro hxy
    obtain ⟨p, hp, i, hi, hpi⟩ := hinv.cover x y hxy
    obtain ⟨k, hk⟩ := (layout_mem_iff st p).mpr hp
    exact ⟨(k, p), hk, (mem_cells_iff p (x, y)).mpr ⟨i, hi, hpi⟩⟩
  · rintro ⟨np, hnp, hcells⟩
    obtain ⟨i, hi, hpi⟩ := (mem_cells_iff np.2 (x, y)).mp hcells
    have hp2 : np.2 ∈ st.placements := (layout_mem_iff st np.2).mp ⟨np.1, hnp⟩
    have hlet := hinv.letters np.2 hp2 i hi
    rw [← hpi] at hlet
    have h3 : getCell st.grid x y =
        some ((answers.getD np.2.word_id []).getD i ' ') := hlet
    show (getCell st.grid x y).isSome = true
    rw [h3]
    rfl

/-!
## Claim C7: clue numbers at a shared origin
-/

/-- The two entries of the concrete two-word layout built below: the claim
is refuted on the entry list `[\"AB\", \"AC\"]`. -/
def entriesAB : List (List Char) := [['A', 'B'], ['A', 'C']]

/-- The layout generated for `entriesAB`. -/
def abLayout : Layout := (generate entriesAB).getD ⟨[], [], []⟩

set_option maxRecDepth 20000 in
/-- C7, counterexample: in the layout generated for `entriesAB`, the
Horizontal seed and the Vertical second word both start at the origin cell
(13, 12), yet the numbering step gives them the distinct numbers 1 and 2 —
numbers are never shared. -/
theorem shared_origin_numbers_cex :
    abLayout.placements =
      [(1, ⟨0, 13, 12, .H, 2⟩), (2, ⟨1, 13, 12, .V, 2⟩)] ∧ (1 : Nat) ≠ 2 := by
  constructor
  · rfl
  · decide

/-- C7 (amended) — numbering is strictly sequential: the numbers of a
generated layout are exactly `1, 2, …, K` in `(row, col)`-sorted order, so
an Across and a Down placement starting at the same origin cell receive
distinct numbers (the code never shares a clue number). -/
theorem shared_origin_numbers (answers : List (List Char)) (layout : Layout)
    (h : generate answers = some layout) :
    layout.placements.map Prod.fst = List.range' 1 layout.placements.length ∧
      ∀ np nq, np ∈ layout.placements → nq ∈ layout.placements →
        np.2.row = nq.2.row → np.2.col = nq.2.col →
        np.2.ori = .H → nq.2.ori = .V → np.1 ≠ nq.1 := by
  obtain ⟨st, hinv, rfl⟩ := generate_spec answers layout h
  have hfst : (finalize st).placements.map Prod.fst =
      List.range' 1 (finalize st).placements.length := by
    show (numberFrom 1 (sortPlacements st.placements)).map Prod.fst =
      List.range' 1 (numberFrom 1 (sortPlacements st.placements)).length
    rw [numberFrom_map_fst, numberFrom_length]
  refine ⟨hfst, ?_⟩
  intro np nq hnp hnq _ _ hH hV hcon
  have hnod : ((finalize st).placements.map Prod.fst).Nodup := by
    rw [hfst]
    exact List.nodup_range' _ _
  have heq := eq_of_mem_map_nodup Prod.fst _ hnod np nq hnp hnq hcon
  rw [heq, hV] at hH
  exact Ori.noConfusion hH

/-!
## Claim C5: totality of generation
-/

theorem place_shaped (answers : List (List Char)) (st : State) (id : Nat) (r c : Int)
    (ori : Ori) (st2 : State) (h : place answers st id r c ori = some st2)
    (hsh : Shaped st.grid) : Shaped st2.grid := by
  obtain ⟨g2, m2, hws, hst2⟩ := place_eq_some answers st id r c ori st2 h
  obtain ⟨hl, hr⟩ := writeSpan_shape ori _ _ _ _ _ g2 m2 hws
  subst hst2
  exact ⟨hl.trans hsh.1, fun k hk => (hr k).trans (hsh.2 k hk)⟩

theorem place_isSome_of_bounds (answers : List (List Char)) (st : State) (id : Nat)
    (r c : Int) (ori : Ori) (hsh : Shaped st.grid)
    (hb : ∀ i, i < (answers.getD id []).length →
      0 ≤ (spanPos ori r c i).1 ∧ (spanPos ori r c i).1 < (GRID_SIZE : Int) ∧
        0 ≤ (spanPos ori r c i).2 ∧ (spanPos ori r c i).2 < (GRID_SIZE : Int)) :
    (place answers st id r c ori).isSome = true := by
  have hws := writeSpan_isSome ori (answers.getD id []) st.grid st.used_mask r c
    (fun i hi => shaped_bounds st.grid hsh _ (hb i hi))
  simp only [place]
  rcases hw : writeSpan ori st.grid st.used_mask r c (answers.getD id []) with _ | ⟨g2, m2⟩
  · rw [hw] at hws
    exact absurd hws (by simp)
  · rfl

/-- A placement accepted by `can_place` can always be committed. -/
theorem place_isSome_of_ok (answers : List (List Char)) (st : State) (id : Nat)
    (r c : Int) (ori : Ori) (hsh : Shaped st.grid)
    (hok : (can_place st.grid (answers.getD id []) r c ori).1 = true) :
    (place answers st id r c ori).isSome = true :=
  place_isSome_of_bounds answers st id r c ori hsh
    (can_place_true_span_inB _ _ _ _ _ hok)

theorem placeWord_total (answers : List (List Char)) (st : State) (id : Nat)
    (hsh : Shaped st.grid) :
    ∃ st2, placeWord answers st id = some st2 ∧ Shaped st2.grid := by
  have hcommit : ∀ r c ori, (can_place st.grid (answers.getD id []) r c ori).1 = true →
      ∃ st2, place answers st id r c ori = some st2 ∧ Shaped st2.grid := by
    intro r c ori hok
    have := place_isSome_of_ok answers st id r c ori hsh hok
    rcases hp : place answers st id r c ori with _ | st2
    · rw [hp] at this
      exact absurd this (by simp)
    · exact ⟨st2, rfl, place_shaped answers st id r c ori st2 hp hsh⟩
  have hfb : ∃ st2, fallback answers st id (answers.getD id []) = some st2 ∧
      Shaped st2.grid := by
    rw [fallback]
    rcases hH : scanOri st.grid (answers.getD id []) .H with _ | rc
    · rcases hV : scanOri st.grid (answers.getD id []) .V with _ | rc
      · exact ⟨st, rfl, hsh⟩
      · exact hcommit rc.1 rc.2 .V (scanOri_ok _ _ _ _ hV)
    · exact hcommit rc.1 rc.2 .H (scanOri_ok _ _ _ _ hH)
  simp only [placeWord]
  rcases hb : bestCandidate st.grid (answers.getD id []) with _ | cd
  · exact hfb
  · show ∃ st2, (if 0 < cd.1.1 then place answers st id cd.2.1 cd.2.2.1 cd.2.2.2
        else fallback answers st id (answers.getD id [])) = some st2 ∧ Shaped st2.grid
    by_cases hs : 0 < cd.1.1
    · rw [if_pos hs]
      exact hcommit cd.2.1 cd.2.2.1 cd.2.2.2 (bestCandidate_ok _ _ cd hb)
    · rw [if_neg hs]
      exact hfb

theorem loop_total (answers : List (List Char)) :
    ∀ (l : List Nat) (st : State), Shaped st.grid →
      ∃ st2, l.foldlM (placeWord answers) st = some st2 := by
  intro l
  induction l with
  | nil => intro st _; exact ⟨st, rfl⟩
  | cons id rest ih =>
    intro st hsh
    obtain ⟨st1, h1, hsh1⟩ := placeWord_total answers st id hsh
    obtain ⟨st2, h2⟩ := ih st1 hsh1
    refine ⟨st2, ?_⟩
    rw [List.foldlM_cons, h1]
    exact h2

theorem seed_col_eq (L : Nat) (hL : L ≤ GRID_SIZE) :
    max 0 (Int.fdiv ((GRID_SIZE : Int) - (L : Int)) 2) =
      (((GRID_SIZE - L) / 2 : Nat) : Int) := by
  have h1 : (GRID_SIZE : Int) - (L : Int) = ((GRID_SIZE - L : Nat) : Int) := by omega
  have h2 : (2 : Int) = ((2 : Nat) : Int) := rfl
  rw [h1, h2, ← Int.ofNat_fdiv]
  exact max_eq_right (by omega)

/-- C5, counterexample to the claim as stated: on the single 28-letter entry
the unchecked seed placement runs off the right edge of the 27×27 grid, so
`generate` fails (an uncaught Python `IndexError`) instead of returning a
layout. -/
theorem generate_raises_cex : generate [List.replicate 28 'A'] = none := by rfl

/-- C5 (amended: every normalized answer fits in the grid) — totality: if
each answer has length at most `GRID_SIZE`, `generate` never fails and
returns a layout, even when some entries end up unplaced; in particular the
unchecked seed placement stays inside the grid. -/
theorem generate_total_of_fits (answers : List (List Char))
    (hlen : ∀ w ∈ answers, w.length ≤ GRID_SIZE) :
    ∃ layout, generate answers = some layout := by
  have hG : GRID_SIZE = 27 := rfl
  rw [generate]
  rcases ho : sortOrder answers with _ | ⟨w0, rest⟩
  · exact ⟨finalize initState, rfl⟩
  · obtain ⟨hperm, _⟩ := sortOrder_spec answers
    rw [ho] at hperm
    have hw0 : w0 < answers.length :=
      List.mem_range.mp (hperm.mem_iff.mp (by simp))
    have hwmem : answers.getD w0 [] ∈ answers := by
      rw [List.getD_eq_getElem?_getD, List.getElem?_eq_getElem hw0]
      exact List.getElem_mem hw0
    have hwlen : (answers.getD w0 []).length ≤ GRID_SIZE := hlen _ hwmem
    have hseed : (seedPlace answers initState w0).isSome = true := by
      simp only [seedPlace]
      apply place_isSome_of_bounds answers initState w0 _ _ .H initState_shaped
      intro i hi
      rw [seed_col_eq _ hwlen]
      have hr : ((GRID_SIZE : Int) / 2) = 13 := by decide
      rw [hr]
      simp only [spanPos]
      omega
    rcases hs : seedPlace answers initState w0 with _ | s1
    · rw [hs] at hseed
      exact absurd hseed (by simp)
    · have hsh1 : Shaped s1.grid := by
        have h2 : place answers initState w0 ((GRID_SIZE : Int) / 2)
            (max 0 (Int.fdiv ((GRID_SIZE : Int) - ((answers.getD w0 []).length : Int)) 2))
            .H = some s1 := hs
        exact place_shaped answers initState w0 _ _ .H s1 h2 initState_shaped
      obtain ⟨st2, h2⟩ := loop_total answers rest s1 hsh1
      refine ⟨finalize st2, ?_⟩
      rw [runOrder, hs]
      show (rest.foldlM (placeWord answers) s1).map finalize = some (finalize st2)
      rw [h2]
      rfl

/-- Witness for C5 (amended) at the concrete one-entry list `[\"A\"]`. -/
theorem generate_total_of_fits_witness :
    (∀ w ∈ ([['A']] : List (List Char)), w.length ≤ GRID_SIZE) ∧
      ∃ layout, generate [['A']] = some layout :=
  ⟨by decide, generate_total_of_fits [['A']] (by decide)⟩

/-!
## Claim C6: silent skip of unplaceable entries
-/

/-- C6 — what the code actually does at an unplaceable entry: when the
legality check fails at every position in both orientations, the generation
loop leaves the state unchanged — no placement, no mark, no report of the
dropped entry anywhere in the output (the layout carries only `grid`,
`used_mask` and `placements`). -/
theorem unplaceable_silent_skip (answers : List (List Char)) (st : State) (id : Nat)
    (hall : ∀ (r c : Int) (oo : Ori),
      (can_place st.grid (answers.getD id []) r c oo).1 = false) :
    placeWord answers st id = some st := by
  have hbest : bestCandidate st.grid (answers.getD id []) = none := by
    rcases hb : bestCandidate st.grid (answers.getD id []) with _ | cd
    · rfl
    · have hok := bestCandidate_ok _ _ cd hb
      have := hall cd.2.1 cd.2.2.1 cd.2.2.2
      rw [hok] at this
      exact absurd this (by simp)
  have hscan : ∀ oo, scanOri st.grid (answers.getD id []) oo = none := by
    intro oo
    rcases hsc : scanOri st.grid (answers.getD id []) oo with _ | rc
    · rfl
    · have hok := scanOri_ok _ _ _ _ hsc
      have := hall rc.1 rc.2 oo
      rw [hok] at this
      exact absurd this (by simp)
  simp only [placeWord, hbest, fallback, hscan]

/-- Witness for C6: a 28-letter word fits nowhere in the 27×27 grid, and the
loop drops it silently, returning the state unchanged. -/
theorem unplaceable_silent_skip_witness :
    (∀ (r c : Int) (oo : Ori),
      (can_place initState.grid ([List.replicate 28 'B'].getD 0 []) r c oo).1 = false) ∧
      placeWord [List.replicate 28 'B'] initState 0 = some initState := by
  have hall : ∀ (r c : Int) (oo : Ori),
      (can_place initState.grid ([List.replicate 28 'B'].getD 0 []) r c oo).1 = false := by
    intro r c oo
    have hlen : (([List.replicate 28 'B'].getD 0 []) : List Char).length = 28 := by decide
    have hG : (GRID_SIZE : Int) = 27 := rfl
    rcases oo
    · simp only [can_place, hlen]
      rw [if_pos (by omega)]
    · simp only [can_place, hlen]
      rw [if_pos (by omega)]
  exact ⟨hall, unplaceable_silent_skip [List.replicate 28 'B'] initState 0 hall⟩

/-!
## Concrete witnesses on the two-entry example
-/

set_option maxRecDepth 20000 in
/-- The concrete layout for `entriesAB`, evaluated once: the seed `"AB"`
lies Horizontal at (13, 12), and `"AC"` crosses it Vertically at the same
origin. -/
theorem abLayout_eq : generate entriesAB = some abLayout := rfl

set_option maxRecDepth 20000 in
/-- The placement list of the concrete layout. -/
theorem abPlacements :
    abLayout.placements = [(1, ⟨0, 13, 12, .H, 2⟩), (2, ⟨1, 13, 12, .V, 2⟩)] := rfl

/-- The generation state after both loop iterations on `entriesAB`. -/
def abState : State :=
  (runOrder entriesAB ((sortOrder entriesAB).take 2)).getD ⟨[], [], []⟩

set_option maxRecDepth 20000 in
/-- The state after the second commit on `entriesAB`, evaluated once. -/
theorem abState_eq :
    runOrder entriesAB ((sortOrder entriesAB).take 2) = some abState := rfl

set_option maxRecDepth 20000 in
/-- The placements committed after the second loop iteration. -/
theorem abStatePlacements :
    abState.placements = [⟨0, 13, 12, .H, 2⟩, ⟨1, 13, 12, .V, 2⟩] := rfl

/-- Witness for C1 at `entriesAB`: the Horizontal seed and the Vertical
crossing word share cell (13, 12) (index 0 of both spans) and assign the
same letter there — both mid-generation (after the second commit) and in
the generated layout. -/
theorem letter_agreement_witness :
    (runOrder entriesAB ((sortOrder entriesAB).take 2) = some abState ∧
      (entriesAB.getD 0 []).getD 0 ' ' = (entriesAB.getD 1 []).getD 0 ' ') ∧
    (generate entriesAB = some abLayout ∧
      (entriesAB.getD 1 []).getD 0 ' ' = (entriesAB.getD 0 []).getD 0 ' ') := by
  constructor
  · refine ⟨abState_eq, (letter_agreement entriesAB).1 2 abState abState_eq
      ⟨0, 13, 12, .H, 2⟩ ⟨1, 13, 12, .V, 2⟩ ?_ ?_ (by decide) 0 0
      (by decide) (by decide) (by decide)⟩
    · rw [abStatePlacements]
      decide
    · rw [abStatePlacements]
      decide
  · refine ⟨abLayout_eq, (letter_agreement entriesAB).2 abLayout
      (2, ⟨1, 13, 12, .V, 2⟩) (1, ⟨0, 13, 12, .H, 2⟩) abLayout_eq ?_ ?_ (by decide) 0 0
      (by decide) (by decide) (by decide)⟩
    · rw [abPlacements]
      decide
    · rw [abPlacements]
      decide

/-- Witness for C2 at `entriesAB`: both entries are placed (2 = 2), and
entry 0 (`"AB"`) has exactly one placement carrying its letters. -/
theorem completeness_witness :
    generate entriesAB = some abLayout ∧
      abLayout.placements.length = entriesAB.length ∧
      ∃ np, np ∈ abLayout.placements ∧ np.2.word_id = 0 ∧
        np.2.length = (['A', 'B'] : List Char).length ∧
        (∀ i, i < (['A', 'B'] : List Char).length →
          getCell abLayout.grid (pcell np.2 i).1 (pcell np.2 i).2 =
            some ((['A', 'B'] : List Char).getD i ' ')) ∧
        ∀ nq ∈ abLayout.placements, nq.2.word_id = 0 → nq = np := by
  refine ⟨abLayout_eq, ?_, completeness entriesAB abLayout abLayout_eq ?_ 0 ['A', 'B'] rfl⟩
  · rw [abPlacements]
    rfl
  · rw [abPlacements]
    rfl

/-- Witness for C9 at `entriesAB`, at the crossing cell (13, 12). -/
theorem coverage_witness :
    generate entriesAB = some abLayout ∧
      ((getCell abLayout.grid 13 12).isSome = true ↔
        ∃ np ∈ abLayout.placements, ((13 : Int), (12 : Int)) ∈ np.2.cells) :=
  ⟨abLayout_eq, coverage entriesAB abLayout abLayout_eq 13 12⟩

/-- Witness for C7 (amended) at `entriesAB`: the numbering is `[1, 2]`, and
the Across and Down placements sharing origin (13, 12) carry the distinct
numbers 1 and 2. -/
theorem shared_origin_numbers_witness :
    generate entriesAB = some abLayout ∧
      abLayout.placements.map Prod.fst = List.range' 1 abLayout.placements.length ∧
      (1 : Nat) ≠ 2 := by
  refine ⟨abLayout_eq, (shared_origin_numbers entriesAB abLayout abLayout_eq).1, ?_⟩
  refine (shared_origin_numbers entriesAB abLayout abLayout_eq).2
    (1, ⟨0, 13, 12, .H, 2⟩) (2, ⟨1, 13, 12, .V, 2⟩) ?_ ?_ rfl rfl rfl rfl
  · rw [abPlacements]
    decide
  · rw [abPlacements]
    decide

end Crucigrama
